import Mathlib

/-!
# lynxdns: the wire-format decoder

A shallow embedding of `src/utility.hpp`, `src/dns.hpp` and `src/dns.cpp`.

* A receive buffer (`std::unique_ptr<char[]>`) is a `List Octet`; the length of
  the list is the size of the allocation, which is not the received length
  `msg_len` (the server shell allocates 512 zeroed octets and receives into them).
* The source indexes the buffer without any check.  Here every read is
  bounds-checked against the allocation, and a read outside it ends the run
  with `decode_fault.out_of_bounds`.  That outcome is not a C++ exception: it
  marks a run whose behaviour the language leaves undefined.
* Two implementation-defined choices of the C++ platform change what the code
  computes, and are carried explicitly in `Platform`: byte order
  (`std::endian::native`) and the signedness of plain `char`.
* `int` is 32 bits wide and `size_t` 64 bits wide; both are kept as the
  natural number of their two's-complement bit pattern.  The cursor
  `message_ptr` is a plain natural number: it is only ever advanced from an
  index inside the buffer by at most 64, so it cannot wrap.
* Logging (`spdlog::...`) has no influence on the result and is left out.
-/

namespace lynxdns

/-- One octet of a message buffer. -/
abbrev Octet := Fin 256

/-- The implementation-defined parameters the source depends on. -/
structure Platform where
  /-- Whether `std::endian::native == std::endian::little`. -/
  little_endian : Bool
  /-- Whether plain `char` is a signed type. -/
  char_signed : Bool
deriving DecidableEq

/-- Little-endian, signed `char`: x86-64 Linux with GCC or Clang. -/
def x86_64 : Platform := ⟨true, true⟩

/-- Little-endian, unsigned `char`: AArch64 Linux. -/
def aarch64 : Platform := ⟨true, false⟩

/-- Big-endian, unsigned `char`: s390x Linux. -/
def s390x : Platform := ⟨false, false⟩

namespace utility

/-- The function `std::byteswap` on an unsigned integer that is `bytes` octets wide. -/
def byteswap : Nat → Nat → Nat
  | 0, _ => 0
  | n + 1, v => (v % 256) * 256 ^ n + byteswap n (v / 256)

/-- The template `utility::ntoh<T>` with `sizeof(T) = bytes` (utility.hpp:11-22). -/
def ntoh (P : Platform) (bytes : Nat) (val : Nat) : Nat :=
  if P.little_endian then byteswap bytes val else val

/-- The template `utility::hton<T>` with `sizeof(T) = bytes` (utility.hpp:23-34). -/
def hton (P : Platform) (bytes : Nat) (val : Nat) : Nat :=
  if P.little_endian then byteswap bytes val else val

end utility

/-- How a run of the decoder can end without a result. -/
inductive decode_fault where
  /-- The exception `std::runtime_error("dns_query: message is not a query")` thrown at
  dns.cpp:74. -/
  | not_a_query
  /-- The exception `std::runtime_error("dns_query: message has copression")` thrown at
  dns.cpp:138. -/
  | has_compression
  /-- A read outside the buffer allocation.  The source performs the read
  unchecked; this is undefined behaviour there, not an exception. -/
  | out_of_bounds
deriving DecidableEq

/-- The struct `message_header` (dns.hpp:16-37): six `uint16_t` fields. -/
structure message_header where
  id : Nat
  flag : Nat
  qd_count : Nat
  an_count : Nat
  ns_count : Nat
  ar_count : Nat
deriving DecidableEq

/-- The unsigned value of the octet at index `i`, `0` outside the buffer. -/
def octet_at (buf : List Octet) (i : Nat) : Nat := (buf.getD i 0).val

/-- The `uint16_t` object whose storage is the octets at `i` and `i + 1`, as
the `reinterpret_cast` of dns.cpp:20 reads it in native byte order. -/
def load_u16 (P : Platform) (buf : List Octet) (i : Nat) : Nat :=
  if P.little_endian then octet_at buf i + 256 * octet_at buf (i + 1)
  else 256 * octet_at buf i + octet_at buf (i + 1)

/-- The constructor `message_header::message_header(const char*)` (dns.cpp:19-28): copy the
twelve octets as a struct, then `ntoh` each field. -/
def message_header.ctor (P : Platform) (msg_in : List Octet) :
    Except decode_fault message_header :=
  if msg_in.length < 12 then .error .out_of_bounds
  else .ok
    { id := utility.ntoh P 2 (load_u16 P msg_in 0)
      flag := utility.ntoh P 2 (load_u16 P msg_in 2)
      qd_count := utility.ntoh P 2 (load_u16 P msg_in 4)
      an_count := utility.ntoh P 2 (load_u16 P msg_in 6)
      ns_count := utility.ntoh P 2 (load_u16 P msg_in 8)
      ar_count := utility.ntoh P 2 (load_u16 P msg_in 10) }

/-- The class `dns_name : public std::vector<std::string>` (dns.hpp:39): a
sequence of labels, each a string of octets. -/
abbrev dns_name := List (List Octet)

/-- The character `'.'`. -/
def dot : Octet := 46

/-- The conversion `dns_name::operator std::string` (dns.hpp:44-52): the loop
`r += v.length() == 0 ? v : v + "."` over the labels. -/
def dns_name.to_string (name : dns_name) : List Octet :=
  name.foldl (fun r v => r ++ (if v.length = 0 then v else v ++ [dot])) []

/-- The struct `message_question` (dns.hpp:55-60). -/
structure message_question where
  qname : dns_name
  qtype : Nat
  qclass : Nat
deriving DecidableEq

/-- Conversion of a `char` to `size_t` (dns.cpp:130): the 64-bit pattern of
its value, sign-extended when `char` is signed. -/
def size_of_char (P : Platform) (c : Octet) : Nat :=
  if P.char_signed && decide (128 ≤ c.val) then 2 ^ 64 - 256 + c.val else c.val

/-- Integral promotion of a `char` to `int` (dns.cpp:148): the 32-bit pattern
of its value, sign-extended when `char` is signed. -/
def int_of_char (P : Platform) (c : Octet) : Nat :=
  if P.char_signed && decide (128 ≤ c.val) then 2 ^ 32 - 256 + c.val else c.val

/-- The expression `utility::ntoh<uint16_t>(b << 8 | a)` of dns.cpp:148-149,
with `a` the `char` at the cursor and `b` the `char` after it: shift and or
on `int`, conversion to `uint16_t`, then `ntoh`. -/
def question_u16 (P : Platform) (a b : Octet) : Nat :=
  utility.ntoh P 2 ((((int_of_char P b <<< 8) % 2 ^ 32) ||| int_of_char P a) % 2 ^ 16)

/-- The `do ... while (label_length != 0)` loop of dns.cpp:128-143, started
with cursor `message_ptr` and the labels read so far in `qname`.  Every
iteration reads inside the buffer and moves the cursor forward, so the loop
stops within `buf.length + 1` iterations; `fuel` bounds the iterations, and any
two amounts with `buf.length < fuel + message_ptr` give the same run
(`read_labels_fuel`). -/
def read_labels (P : Platform) (buf : List Octet) :
    Nat → Nat → dns_name → Except decode_fault (dns_name × Nat)
  | 0, _, _ => .error .out_of_bounds
  | fuel + 1, message_ptr, qname =>
    match buf[message_ptr]? with
    | none => .error .out_of_bounds
    | some c =>
      let label_length := size_of_char P c
      if label_length > 63 then .error .has_compression
      else if buf.length < message_ptr + 1 + label_length then .error .out_of_bounds
      else
        let qname1 := qname ++ [(buf.drop (message_ptr + 1)).take label_length]
        let message_ptr1 := message_ptr + label_length + 1
        if label_length ≠ 0 then read_labels P buf fuel message_ptr1 qname1
        else .ok (qname1, message_ptr1)

/-- One iteration of the question loop (dns.cpp:126-159): the name, then
qtype and qclass from the four octets after it; the cursor ends after them.
The label loop is given more fuel than the buffer has octets, which it cannot
use up from any cursor. -/
def read_question (P : Platform) (buf : List Octet) (message_ptr : Nat) :
    Except decode_fault (message_question × Nat) :=
  match read_labels P buf (buf.length + 1) message_ptr [] with
  | .error e => .error e
  | .ok (qname, p) =>
    if buf.length < p + 4 then .error .out_of_bounds
    else .ok
      ({ qname := qname
         qtype := question_u16 P (buf.getD p 0) (buf.getD (p + 1) 0)
         qclass := question_u16 P (buf.getD (p + 2) 0) (buf.getD (p + 3) 0) },
       p + 4)

/-- The loop `for (size_t i = 0; i < _header.qd_count; i++)` of dns.cpp:124-160
with `n` iterations left, cursor `message_ptr` and `_question_list = acc`. -/
def read_questions (P : Platform) (buf : List Octet) :
    Nat → Nat → List message_question → Except decode_fault (List message_question × Nat)
  | 0, message_ptr, acc => .ok (acc, message_ptr)
  | n + 1, message_ptr, acc =>
    match read_question P buf message_ptr with
    | .error e => .error e
    | .ok (question, p) => read_questions P buf n p (acc ++ [question])

/-- The class `dns_query` (dns.hpp:100-114): its four private members. -/
structure dns_query where
  _message_in : List Octet
  _message_length : Nat
  _header : message_header
  _question_list : List message_question
deriving DecidableEq

/-- The constructor `dns_query::dns_query` (dns.cpp:30-186) together with the
cursor value it ends with. -/
def dns_query.construct (P : Platform) (msg_in : List Octet) (msg_len : Nat) :
    Except decode_fault (dns_query × Nat) :=
  match message_header.ctor P msg_in with
  | .error e => .error e
  | .ok header =>
    if (header.flag &&& 0x8000) >>> 15 ≠ 0 then .error .not_a_query
    else
      match read_questions P msg_in header.qd_count 12 [] with
      | .error e => .error e
      | .ok (question_list, p) =>
        .ok ({ _message_in := msg_in
               _message_length := msg_len
               _header := header
               _question_list := question_list }, p)

/-- The constructor `dns_query::dns_query(std::unique_ptr<char[]> msg_in, size_t msg_len)`
(dns.cpp:30-186); the received length is stored and not otherwise used. -/
def dns_query.ctor (P : Platform) (msg_in : List Octet) (msg_len : Nat) :
    Except decode_fault dns_query :=
  match dns_query.construct P msg_in msg_len with
  | .error e => .error e
  | .ok (q, _) => .ok q

/-- The accessor `dns_query::get_question_list` (dns.cpp:192-195). -/
def dns_query.get_question_list (q : dns_query) : List message_question :=
  q._question_list

/-- Construct a `dns_query` and, when that succeeds, ask it for its question
list (the two calls of dns.hpp:153-154). -/
def decode_questions (P : Platform) (msg_in : List Octet) (msg_len : Nat) :
    Except decode_fault (List message_question) :=
  match dns_query.ctor P msg_in msg_len with
  | .error e => .error e
  | .ok q => .ok q.get_question_list


/-! ## The wire format of the question section

The sender's side of RFC 1035 section 4.1.2, against which the decoder is
checked: a name is its labels, each after a length octet, closed by a zero
octet; a question is a name and four octets. -/

/-- The octet that holds a label length. -/
def length_octet (l : List Octet) : Octet := Fin.ofNat l.length

/-- The labels of a name back to back, each after its length octet. -/
def encode_labels : List (List Octet) → List Octet
  | [] => []
  | l :: ls => length_octet l :: (l ++ encode_labels ls)

/-- Every label has between 1 and 63 octets. -/
def well_formed_labels (ls : List (List Octet)) : Prop :=
  ∀ l ∈ ls, 1 ≤ l.length ∧ l.length ≤ 63

instance (ls : List (List Octet)) : Decidable (well_formed_labels ls) := by
  unfold well_formed_labels; infer_instance

/-- A question as its sender writes it: the labels of the name without the
root, and the four octets that follow the name. -/
structure wire_question where
  labels : List (List Octet)
  t0 : Octet
  t1 : Octet
  c0 : Octet
  c1 : Octet
deriving DecidableEq

/-- The octets of one question: labels, zero octet, qtype, qclass. -/
def encode_question (q : wire_question) : List Octet :=
  encode_labels q.labels ++ 0 :: [q.t0, q.t1, q.c0, q.c1]

/-- The octets of a question section. -/
def encode_questions : List wire_question → List Octet
  | [] => []
  | q :: qs => encode_question q ++ encode_questions qs

/-- The `message_question` the decoder builds from one question: the labels
with the root label after them, and the two fields as dns.cpp:148-149
computes them from the four octets. -/
def decoded (P : Platform) (q : wire_question) : message_question :=
  { qname := q.labels ++ [[]]
    qtype := question_u16 P q.t0 q.t1
    qclass := question_u16 P q.c0 q.c1 }

/-- Every question of a section has a well-formed name. -/
def well_formed_questions (qs : List wire_question) : Prop :=
  ∀ q ∈ qs, well_formed_labels q.labels

instance (qs : List wire_question) : Decidable (well_formed_questions qs) := by
  unfold well_formed_questions; infer_instance

/-- The receive step of the server shell (dns.hpp:150-152, main.cpp:38): a
buffer of 512 zeroed octets into which `recvfrom` writes the datagram. -/
def receive_buffer (datagram : List Octet) : List Octet :=
  datagram.take 512 ++ List.replicate (512 - datagram.length) 0

/-- The canonical string in the words of the data model: the concatenation,
in sequence order, of each non-empty label followed by `.`. -/
def canonical_string (name : dns_name) : List Octet :=
  ((name.filter (fun v => decide (v ≠ []))).map (fun v => v ++ [dot])).flatten

/-- The octets of a string literal. -/
def ascii (s : String) : List Octet := s.toList.map (fun c => Fin.ofNat c.toNat)

/-! ## Sample messages -/

/-- Header with id 0x1234, flags 0x0100 (RD set, QR clear), one question and
no other section. -/
def header_A : List Octet := [0x12, 0x34, 0x01, 0x00, 0, 1, 0, 0, 0, 0, 0, 0]

/-- The question `www.example.com`, qtype 1 (A), qclass 1 (IN). -/
def question_A : wire_question :=
  { labels := [ascii "www", ascii "example", ascii "com"], t0 := 0, t1 := 1, c0 := 0, c1 := 1 }

/-- Scenario A: a query for `www.example.com` A IN. -/
def scenario_A : List Octet := header_A ++ encode_question question_A

/-- Header of scenario A with flags 0x8100: the QR bit is set. -/
def header_B : List Octet := [0x12, 0x34, 0x81, 0x00, 0, 1, 0, 0, 0, 0, 0, 0]

/-- Scenario B: scenario A sent as a response. -/
def scenario_B : List Octet := header_B ++ encode_question question_A

/-- The question of scenario A asked with qclass 0x8001: class IN with the
top bit set, as multicast DNS uses it to ask for a unicast response. -/
def question_QU : wire_question :=
  { labels := [ascii "www", ascii "example", ascii "com"],
    t0 := 0, t1 := 1, c0 := 0x80, c1 := 0x01 }

/-- The question of scenario A after header A, asked with qclass 0x8001. -/
def scenario_QU : List Octet := header_A ++ encode_question question_QU

/-- The question whose name is the root alone and whose four octets are zero:
what five zero octets spell. -/
def root_question : wire_question := { labels := [], t0 := 0, t1 := 0, c0 := 0, c1 := 0 }

/-- Header with id 0xBEEF, flags 0x0100, two questions and no other section. -/
def header_two : List Octet := [0xBE, 0xEF, 0x01, 0x00, 0, 2, 0, 0, 0, 0, 0, 0]

/-- The question `example.org`, qtype 28 (AAAA), qclass 1 (IN). -/
def question_org : wire_question :=
  { labels := [ascii "example", ascii "org"], t0 := 0, t1 := 28, c0 := 0, c1 := 1 }

/-- Two questions after header `header_two`: scenario A's question, then the
same name asked with qclass 0x8001. -/
def scenario_two_QU : List Octet := header_two ++ encode_questions [question_A, question_QU]

/-- Header A with an_count 1, ns_count 2 and ar_count 3. -/
def header_A_counts : List Octet := [0x12, 0x34, 0x01, 0x00, 0, 1, 0, 1, 0, 2, 0, 3]

/-- The entry the decoder builds from five zero octets. -/
def root_entry : message_question := { qname := [[]], qtype := 0, qclass := 0 }

/-- The four octets after a name when only the first few of them were
received and the buffer holds zeros after them. -/
def zero_filled_question (ls : List (List Octet)) (tq : List Octet) : wire_question :=
  { labels := ls, t0 := tq.getD 0 0, t1 := tq.getD 1 0, c0 := tq.getD 2 0, c1 := tq.getD 3 0 }

/-! ## Octets of an unsigned integer

The reading of "byte-reversed" against which `std::byteswap` is checked. -/

/-- The `n` low octets of `v`, least significant first. -/
def to_octets : Nat → Nat → List Nat
  | 0, _ => []
  | n + 1, v => v % 256 :: to_octets n (v / 256)

/-- The number whose octets, least significant first, are `ds`. -/
def of_octets : List Nat → Nat
  | [] => 0
  | d :: ds => d + 256 * of_octets ds

/-- The value of `v` with its `n` octets in reverse order. -/
def reverse_octets (n v : Nat) : Nat := of_octets (to_octets n v).reverse

/-! ## The record cache and the response -/

/-- The struct `resource_record` (dns.hpp:62-75): the prefix shared by all
record layouts. -/
structure resource_record where
  type : Nat
  rrclass : Nat
  ttl : Nat
  rdlength : Nat
deriving DecidableEq

/-- The type `std::multimap<std::string, resource_record>` (dns.hpp:138): the
entries in iteration order, which is key order and, among equal keys,
insertion order. -/
abbrev cache_map := List (List Octet × resource_record)

/-- The member `std::multimap::find` called on the cache: the position of an
entry with the key, or none for `end()`, and the container, which `find`
leaves as it is. -/
def cache_map.find (cache : cache_map) (key : List Octet) : Option Nat × cache_map :=
  (cache.findIdx? (fun entry => decide (entry.1 = key)), cache)

/-- The class `dns_response` (dns.hpp:116-123): it has no member. -/
structure dns_response where
  mk ::
deriving DecidableEq

/-- The constructor `dns_response::dns_response` (dns.cpp:197-205): one
`cache_map.find` for each question, on its name converted to a string; the
iterator is dropped.  The cache is passed by reference, so it is returned. -/
def dns_response.ctor (question_list : List message_question) (cache : cache_map) :
    dns_response × cache_map :=
  (dns_response.mk,
    question_list.foldl (fun c v => (cache_map.find c (dns_name.to_string v.qname)).2) cache)

/-! ## The server shell -/

/-- The constant `DNS_UDP_MSG_LEN_RESTRICTION` (dns.hpp:130). -/
def DNS_UDP_MSG_LEN_RESTRICTION : Nat := 512

/-- The type `recv_function` (dns.hpp:134): buffer and size in; peer, received
size and buffer out.  An injected operation that throws is not modelled. -/
abbrev recv_function (Tpeer : Type) := List Octet → Nat → Tpeer × Nat × List Octet

/-- The type `send_function` (dns.hpp:135): buffer, size and peer in; the
number of octets sent out. -/
abbrev send_function (Tpeer : Type) := List Octet → Nat → Tpeer → Nat

/-- A call of one of the two injected operations, with its arguments. -/
inductive shell_call (Tpeer : Type) where
  | recv (buffer : List Octet) (max_len : Nat)
  | send (buffer : List Octet) (len : Nat) (peer : Tpeer)

/-- The class `dns_server<Tpeer>` (dns.hpp:125-157): its three private
members. -/
structure dns_server (Tpeer : Type) where
  _cache_map : cache_map
  _recv : recv_function Tpeer
  _send : send_function Tpeer

/-- What one run of the constructor of `dns_server` did. -/
structure shell_run (Tpeer : Type) where
  /-- The calls of the injected operations, in order. -/
  calls : List (shell_call Tpeer)
  /-- The local object `query` of dns.hpp:153, when its constructor returned. -/
  query : Option dns_query
  /-- Whether the local object `dns_response` of dns.hpp:154 was constructed. -/
  responded : Bool
  /-- The server object, or the exception that leaves the constructor: the
  body has no handler. -/
  result : Except decode_fault (dns_server Tpeer)

/-- The constructor `dns_server::dns_server(recv, send)` (dns.hpp:144-155):
allocate 512 zeroed octets, call `_recv` on them, construct `dns_query` from
the buffer and size it returns, construct `dns_response` from the question
list and the cache, which is empty. -/
def dns_server.ctor {Tpeer : Type} (P : Platform) (recv : recv_function Tpeer)
    (send : send_function Tpeer) : shell_run Tpeer :=
  let recv_buf : List Octet := List.replicate DNS_UDP_MSG_LEN_RESTRICTION 0
  let received := recv recv_buf DNS_UDP_MSG_LEN_RESTRICTION
  match dns_query.ctor P received.2.2 received.2.1 with
  | .error e =>
    { calls := [shell_call.recv recv_buf DNS_UDP_MSG_LEN_RESTRICTION]
      query := none
      responded := false
      result := .error e }
  | .ok query =>
    let response := dns_response.ctor query.get_question_list []
    { calls := [shell_call.recv recv_buf DNS_UDP_MSG_LEN_RESTRICTION]
      query := some query
      responded := true
      result := .ok { _cache_map := response.2, _recv := recv, _send := send } }

/-- The receive operation of main.cpp:33-45 when the socket delivers
`datagram` from `peer`: `recvfrom` writes at most `size` octets of it at the
start of the buffer and returns their number. -/
def udp_recv {Tpeer : Type} (peer : Tpeer) (datagram : List Octet) : recv_function Tpeer :=
  fun recvbuf size =>
    (peer, min datagram.length size,
      datagram.take size ++ recvbuf.drop (min datagram.length size))

/-- The send operation of main.cpp:46-55 when `sendto` sends all octets. -/
def udp_send {Tpeer : Type} : send_function Tpeer :=
  fun _ size _ => size

/-! ## Byte order -/

theorem byteswap_two (v : Nat) :
    utility.byteswap 2 v = (v % 256) * 256 + (v / 256) % 256 := by
  simp [utility.byteswap]

theorem octet_at_lt (buf : List Octet) (i : Nat) : octet_at buf i < 256 :=
  (buf.getD i 0).isLt

/-- On either byte order, `ntoh` of the natively loaded field is the
big-endian value of its two octets. -/
theorem ntoh_load_u16 (P : Platform) (buf : List Octet) (i : Nat) :
    utility.ntoh P 2 (load_u16 P buf i) = 256 * octet_at buf i + octet_at buf (i + 1) := by
  have h0 := octet_at_lt buf i
  have h1 := octet_at_lt buf (i + 1)
  unfold utility.ntoh load_u16
  cases P.little_endian
  · simp
  · simp only [if_true, byteswap_two]
    omega

/-- The test `(flag & 0x8000) >> 15 != 0` of dns.cpp:71 on a 16-bit value. -/
theorem qr_test_iff (f : Nat) (hf : f < 65536) :
    (f &&& 0x8000) >>> 15 ≠ 0 ↔ 32768 ≤ f := by
  have h : (f &&& 0x8000) >>> 15 = (f.testBit 15).toNat := by
    apply Nat.eq_of_testBit_eq
    intro j
    have e : (0x8000 : Nat) = 2 ^ 15 := by norm_num
    rw [e, Nat.testBit_shiftRight, Nat.testBit_and, Nat.testBit_two_pow, Nat.testBit_bool_to_nat]
    cases j with
    | zero => simp
    | succ k => simp
  rw [h, Nat.testBit_to_div_mod]
  by_cases c : f / 2 ^ 15 % 2 = 1
  · simp [c]; omega
  · simp [c]; omega

theorem or_mod_two_pow (x y n : Nat) : (x ||| y) % 2 ^ n = (x % 2 ^ n) ||| (y % 2 ^ n) := by
  apply Nat.eq_of_testBit_eq
  intro j
  simp only [Nat.testBit_mod_two_pow, Nat.testBit_or, Bool.and_or_distrib_left]

/-- Where sign extension cannot reach the low sixteen bits, the expression of
dns.cpp:148 reads the two octets as a big-endian number. -/
theorem question_u16_big_endian (P : Platform) (a b : Octet)
    (hle : P.little_endian = true) (hs : P.char_signed = false ∨ a.val < 128) :
    question_u16 P a b = 256 * a.val + b.val := by
  have ha := a.isLt
  have hb := b.isLt
  have hx : (int_of_char P b <<< 8) % 2 ^ 32 % 2 ^ 16 = 2 ^ 8 * b.val := by
    unfold int_of_char
    rw [Nat.shiftLeft_eq]
    split <;> omega
  have hy : int_of_char P a % 2 ^ 16 = a.val := by
    unfold int_of_char
    rcases hs with hs | hs
    · simp [hs]; omega
    · have : ¬ (128 ≤ a.val) := by omega
      simp [this]; omega
  unfold question_u16 utility.ntoh
  rw [or_mod_two_pow, hx, hy, ← Nat.mul_add_lt_is_or (by omega), hle, if_pos rfl, byteswap_two]
  omega

/-! ## The label loop -/

theorem size_of_char_small (P : Platform) (c : Octet) (h : c.val < 128) :
    size_of_char P c = c.val := by
  have h1 : ¬ (128 ≤ c.val) := by omega
  simp [size_of_char, h1]

/-- A length octet of 64 or more is above 63 as a `size_t`, whether or not
`char` is signed. -/
theorem size_of_char_large (P : Platform) (c : Octet) (h : 64 ≤ c.val) :
    63 < size_of_char P c := by
  have hc := c.isLt
  unfold size_of_char
  split <;> omega

theorem length_octet_val (l : List Octet) (h : l.length ≤ 63) :
    (length_octet l).val = l.length := by
  unfold length_octet
  simp only [Fin.ofNat, Fin.val_mk]
  omega

theorem getElem?_at_prefix (pre tl : List Octet) (c : Octet) :
    (pre ++ c :: tl)[pre.length]? = some c := by
  rw [List.getElem?_append_right (Nat.le_refl _)]
  simp

theorem take_drop_at_prefix (pre l tl : List Octet) (c : Octet) :
    ((pre ++ c :: (l ++ tl)).drop (pre.length + 1)).take l.length = l := by
  have e : pre ++ c :: (l ++ tl) = (pre ++ [c]) ++ (l ++ tl) := by simp
  have e2 : pre.length + 1 = (pre ++ [c]).length := by simp
  rw [e, e2, List.drop_left, List.take_left]

/-- The label loop on a well-formed name: it returns the labels in wire order
with the root label after them, and leaves the cursor after the zero octet. -/
theorem read_labels_encoded (P : Platform) (ls : List (List Octet)) :
    ∀ (buf pre rest : List Octet) (acc : dns_name) (fuel : Nat),
      well_formed_labels ls → ls.length < fuel →
      buf = pre ++ (encode_labels ls ++ 0 :: rest) →
      read_labels P buf fuel pre.length acc
        = .ok (acc ++ ls ++ [[]], pre.length + (encode_labels ls).length + 1) := by
  induction ls with
  | nil =>
    intro buf pre rest acc fuel _ hf hb
    obtain ⟨f, rfl⟩ : ∃ f, fuel = f + 1 := ⟨fuel - 1, by simp at hf; omega⟩
    subst hb
    have hz : size_of_char P (0 : Octet) = 0 := size_of_char_small P 0 (by decide)
    rw [read_labels]
    simp only [encode_labels, List.nil_append, getElem?_at_prefix, hz]
    simp
  | cons l ls ih =>
    intro buf pre rest acc fuel hwf hf hb
    obtain ⟨f, rfl⟩ : ∃ f, fuel = f + 1 := ⟨fuel - 1, by simp at hf; omega⟩
    have hl := hwf l (List.mem_cons_self l ls)
    have hwf1 : well_formed_labels ls := fun x hx => hwf x (List.mem_cons_of_mem l hx)
    have hv : (length_octet l).val = l.length := length_octet_val l hl.2
    have hsz : size_of_char P (length_octet l) = l.length := by
      rw [size_of_char_small P _ (by omega), hv]
    have hb1 : buf = pre ++ length_octet l :: (l ++ (encode_labels ls ++ 0 :: rest)) := by
      rw [hb]; simp [encode_labels]
    have hget : buf[pre.length]? = some (length_octet l) := by
      rw [hb1]; exact getElem?_at_prefix _ _ _
    have hlab : (buf.drop (pre.length + 1)).take l.length = l := by
      rw [hb1]; exact take_drop_at_prefix _ _ _ _
    have hlen : buf.length
        = pre.length + 1 + l.length + ((encode_labels ls).length + 1 + rest.length) := by
      rw [hb1]; simp; omega
    have hb2 : buf = (pre ++ length_octet l :: l) ++ (encode_labels ls ++ 0 :: rest) := by
      rw [hb1]; simp
    have hrec := ih buf (pre ++ length_octet l :: l) rest (acc ++ [l]) f hwf1
      (by simp at hf; omega) hb2
    have hpl : (pre ++ length_octet l :: l).length = pre.length + l.length + 1 := by
      simp; omega
    rw [hpl] at hrec
    have hne : l.length ≠ 0 := by omega
    have hnb : ¬ (buf.length < pre.length + 1 + l.length) := by omega
    have hn63 : ¬ (l.length > 63) := by omega
    rw [read_labels]
    simp only [hget, hsz, hn63, hnb, if_false, hne, ne_eq, not_false_eq_true, if_true, hlab]
    rw [hrec]
    simp [encode_labels]
    omega

/-- The label loop on a name whose next length octet is 64 or more: it throws
at that octet, with nothing after it in the buffer needed. -/
theorem read_labels_compression (P : Platform) (ls : List (List Octet)) :
    ∀ (buf pre tail : List Octet) (c : Octet) (acc : dns_name) (fuel : Nat),
      well_formed_labels ls → ls.length < fuel → 64 ≤ c.val →
      buf = pre ++ (encode_labels ls ++ c :: tail) →
      read_labels P buf fuel pre.length acc = .error .has_compression := by
  induction ls with
  | nil =>
    intro buf pre tail c acc fuel _ hf hc hb
    obtain ⟨f, rfl⟩ : ∃ f, fuel = f + 1 := ⟨fuel - 1, by simp at hf; omega⟩
    subst hb
    have hz := size_of_char_large P c hc
    rw [read_labels]
    simp only [encode_labels, List.nil_append, getElem?_at_prefix]
    simp [hz]
  | cons l ls ih =>
    intro buf pre tail c acc fuel hwf hf hc hb
    obtain ⟨f, rfl⟩ : ∃ f, fuel = f + 1 := ⟨fuel - 1, by simp at hf; omega⟩
    have hl := hwf l (List.mem_cons_self l ls)
    have hwf1 : well_formed_labels ls := fun x hx => hwf x (List.mem_cons_of_mem l hx)
    have hv : (length_octet l).val = l.length := length_octet_val l hl.2
    have hsz : size_of_char P (length_octet l) = l.length := by
      rw [size_of_char_small P _ (by omega), hv]
    have hb1 : buf = pre ++ length_octet l :: (l ++ (encode_labels ls ++ c :: tail)) := by
      rw [hb]; simp [encode_labels]
    have hget : buf[pre.length]? = some (length_octet l) := by
      rw [hb1]; exact getElem?_at_prefix _ _ _
    have hlen : buf.length
        = pre.length + 1 + l.length + ((encode_labels ls).length + 1 + tail.length) := by
      rw [hb1]; simp; omega
    have hb2 : buf = (pre ++ length_octet l :: l) ++ (encode_labels ls ++ c :: tail) := by
      rw [hb1]; simp
    have hrec := ih buf (pre ++ length_octet l :: l) tail c
      (acc ++ [(buf.drop (pre.length + 1)).take l.length]) f hwf1
      (by simp at hf; omega) hc hb2
    have hpl : (pre ++ length_octet l :: l).length = pre.length + l.length + 1 := by
      simp; omega
    rw [hpl] at hrec
    have hne : l.length ≠ 0 := by omega
    have hnb : ¬ (buf.length < pre.length + 1 + l.length) := by omega
    have hn63 : ¬ (l.length > 63) := by omega
    rw [read_labels]
    simp only [hget, hsz, hn63, hnb, if_false, hne, ne_eq, not_false_eq_true, if_true]
    exact hrec

/-! ## The question loop -/

theorem length_le_encode_labels (ls : List (List Octet)) :
    ls.length ≤ (encode_labels ls).length := by
  induction ls with
  | nil => simp [encode_labels]
  | cons l ls ih => simp [encode_labels]; omega

theorem getD_at_prefix (pre tl : List Octet) (k : Nat) :
    (pre ++ tl).getD (pre.length + k) 0 = tl.getD k 0 := by
  rw [List.getD_eq_getElem?_getD, List.getD_eq_getElem?_getD,
    List.getElem?_append_right (Nat.le_add_right _ _)]
  simp

/-- One iteration of the question loop on a well-formed question that starts
at the cursor. -/
theorem read_question_encoded (P : Platform) (q : wire_question)
    (buf pre rest : List Octet) (hwf : well_formed_labels q.labels)
    (hb : buf = pre ++ (encode_question q ++ rest)) :
    read_question P buf pre.length
      = .ok (decoded P q, pre.length + (encode_question q).length) := by
  have hb1 : buf = pre ++ (encode_labels q.labels ++ 0 :: ([q.t0, q.t1, q.c0, q.c1] ++ rest)) := by
    rw [hb]; simp [encode_question]
  have hlen : buf.length
      = pre.length + (encode_labels q.labels).length + 1 + 4 + rest.length := by
    rw [hb1]; simp; omega
  have hfuel : q.labels.length < buf.length + 1 := by
    have := length_le_encode_labels q.labels
    omega
  have hlab := read_labels_encoded P q.labels buf pre _ [] (buf.length + 1) hwf hfuel hb1
  have hb2 : buf = (pre ++ (encode_labels q.labels ++ [0])) ++ (q.t0 :: q.t1 :: q.c0 :: q.c1 :: rest) := by
    rw [hb1]; simp
  have hpl : (pre ++ (encode_labels q.labels ++ [0])).length
      = pre.length + (encode_labels q.labels).length + 1 := by
    simp; omega
  have g0 : buf.getD (pre.length + (encode_labels q.labels).length + 1) 0 = q.t0 := by
    have := getD_at_prefix (pre ++ (encode_labels q.labels ++ [0]))
      (q.t0 :: q.t1 :: q.c0 :: q.c1 :: rest) 0
    rw [← hb2, hpl] at this
    simpa using this
  have g1 : buf.getD (pre.length + (encode_labels q.labels).length + 1 + 1) 0 = q.t1 := by
    have := getD_at_prefix (pre ++ (encode_labels q.labels ++ [0]))
      (q.t0 :: q.t1 :: q.c0 :: q.c1 :: rest) 1
    rw [← hb2, hpl] at this
    simpa using this
  have g2 : buf.getD (pre.length + (encode_labels q.labels).length + 1 + 2) 0 = q.c0 := by
    have := getD_at_prefix (pre ++ (encode_labels q.labels ++ [0]))
      (q.t0 :: q.t1 :: q.c0 :: q.c1 :: rest) 2
    rw [← hb2, hpl] at this
    simpa using this
  have g3 : buf.getD (pre.length + (encode_labels q.labels).length + 1 + 3) 0 = q.c1 := by
    have := getD_at_prefix (pre ++ (encode_labels q.labels ++ [0]))
      (q.t0 :: q.t1 :: q.c0 :: q.c1 :: rest) 3
    rw [← hb2, hpl] at this
    simpa using this
  have hnb : ¬ (buf.length < pre.length + (encode_labels q.labels).length + 1 + 4) := by omega
  unfold read_question
  rw [hlab]
  simp only [hnb, if_false, g0, g1, g2, g3, List.nil_append]
  simp [decoded, encode_question]
  omega

/-- One iteration of the question loop on a name that runs into a length
octet of 64 or more. -/
theorem read_question_compression (P : Platform) (ls : List (List Octet))
    (buf pre tail : List Octet) (c : Octet) (hwf : well_formed_labels ls)
    (hc : 64 ≤ c.val) (hb : buf = pre ++ (encode_labels ls ++ c :: tail)) :
    read_question P buf pre.length = .error .has_compression := by
  have hfuel : ls.length < buf.length + 1 := by
    have := length_le_encode_labels ls
    rw [hb]; simp; omega
  unfold read_question
  rw [read_labels_compression P ls buf pre tail c [] (buf.length + 1) hwf hfuel hc hb]

/-- The question loop over a well-formed section that starts at the cursor:
as many iterations as there are questions give them all, in wire order. -/
theorem read_questions_encoded (P : Platform) (qs : List wire_question) :
    ∀ (buf pre rest : List Octet) (acc : List message_question),
      well_formed_questions qs →
      buf = pre ++ (encode_questions qs ++ rest) →
      read_questions P buf qs.length pre.length acc
        = .ok (acc ++ qs.map (decoded P), pre.length + (encode_questions qs).length) := by
  induction qs with
  | nil =>
    intro buf pre rest acc _ _
    simp [read_questions, encode_questions]
  | cons q qs ih =>
    intro buf pre rest acc hwf hb
    have hq := hwf q (List.mem_cons_self q qs)
    have hwf1 : well_formed_questions qs := fun x hx => hwf x (List.mem_cons_of_mem q hx)
    have hb1 : buf = pre ++ (encode_question q ++ (encode_questions qs ++ rest)) := by
      rw [hb]; simp [encode_questions]
    have hb2 : buf = (pre ++ encode_question q) ++ (encode_questions qs ++ rest) := by
      rw [hb1]; simp
    have h1 := read_question_encoded P q buf pre _ hq hb1
    have h2 := ih buf (pre ++ encode_question q) rest (acc ++ [decoded P q]) hwf1 hb2
    rw [List.length_append] at h2
    simp only [List.length_cons, read_questions, h1, h2]
    simp [encode_questions]
    omega

/-- The question loop with more iterations to run than there are whole
questions, when the name after them runs into a length octet of 64 or more. -/
theorem read_questions_compression (P : Platform) (qs : List wire_question) :
    ∀ (buf pre tail : List Octet) (ls : List (List Octet)) (c : Octet)
      (acc : List message_question) (m : Nat),
      well_formed_questions qs → well_formed_labels ls → 64 ≤ c.val →
      buf = pre ++ (encode_questions qs ++ (encode_labels ls ++ c :: tail)) →
      read_questions P buf (qs.length + (m + 1)) pre.length acc
        = .error .has_compression := by
  induction qs with
  | nil =>
    intro buf pre tail ls c acc m _ hls hc hb
    have hb1 : buf = pre ++ (encode_labels ls ++ c :: tail) := by
      rw [hb]; simp [encode_questions]
    have h1 := read_question_compression P ls buf pre tail c hls hc hb1
    simp only [List.length_nil, Nat.zero_add, read_questions, h1]
  | cons q qs ih =>
    intro buf pre tail ls c acc m hwf hls hc hb
    have hq := hwf q (List.mem_cons_self q qs)
    have hwf1 : well_formed_questions qs := fun x hx => hwf x (List.mem_cons_of_mem q hx)
    have hb1 : buf = pre ++ (encode_question q
        ++ (encode_questions qs ++ (encode_labels ls ++ c :: tail))) := by
      rw [hb]; simp [encode_questions]
    have hb2 : buf = (pre ++ encode_question q)
        ++ (encode_questions qs ++ (encode_labels ls ++ c :: tail)) := by
      rw [hb1]; simp
    have h1 := read_question_encoded P q buf pre _ hq hb1
    have h2 := ih buf (pre ++ encode_question q) tail ls c (acc ++ [decoded P q]) m
      hwf1 hls hc hb2
    rw [List.length_append] at h2
    have e : (q :: qs).length + (m + 1) = (qs.length + (m + 1)) + 1 := by
      simp; omega
    rw [e, read_questions, h1]
    exact h2

/-! ## The header and the constructor -/

/-- The six header fields are the big-endian values of their octet pairs, on
either byte order. -/
theorem header_fields (P : Platform) (buf : List Octet) (h : 12 ≤ buf.length) :
    message_header.ctor P buf = .ok
      { id := 256 * octet_at buf 0 + octet_at buf 1
        flag := 256 * octet_at buf 2 + octet_at buf 3
        qd_count := 256 * octet_at buf 4 + octet_at buf 5
        an_count := 256 * octet_at buf 6 + octet_at buf 7
        ns_count := 256 * octet_at buf 8 + octet_at buf 9
        ar_count := 256 * octet_at buf 10 + octet_at buf 11 } := by
  have hn : ¬ (buf.length < 12) := by omega
  simp only [message_header.ctor, hn, if_false, ntoh_load_u16]

/-- The QR test of dns.cpp:71 in terms of the octet at offset 2. -/
theorem qr_test_octet (buf : List Octet) :
    ((256 * octet_at buf 2 + octet_at buf 3) &&& 0x8000) >>> 15 ≠ 0
      ↔ 128 ≤ octet_at buf 2 := by
  have h2 := octet_at_lt buf 2
  have h3 := octet_at_lt buf 3
  rw [qr_test_iff _ (by omega)]
  omega

/-- The constructor on a buffer whose QR bit is set. -/
theorem construct_response (P : Platform) (buf : List Octet) (msg_len : Nat)
    (h : 12 ≤ buf.length) (hqr : 128 ≤ octet_at buf 2) :
    dns_query.construct P buf msg_len = .error .not_a_query := by
  have ht := (qr_test_octet buf).mpr hqr
  unfold dns_query.construct
  rw [header_fields P buf h]
  exact if_pos ht

/-- The constructor on a buffer whose QR bit is clear: the question loop runs
`qd_count` times from offset 12. -/
theorem construct_query (P : Platform) (buf : List Octet) (msg_len : Nat)
    (h : 12 ≤ buf.length) (hqr : octet_at buf 2 < 128) :
    dns_query.construct P buf msg_len =
      match read_questions P buf (256 * octet_at buf 4 + octet_at buf 5) 12 [] with
      | .error e => .error e
      | .ok (question_list, p) =>
        .ok ({ _message_in := buf
               _message_length := msg_len
               _header :=
                 { id := 256 * octet_at buf 0 + octet_at buf 1
                   flag := 256 * octet_at buf 2 + octet_at buf 3
                   qd_count := 256 * octet_at buf 4 + octet_at buf 5
                   an_count := 256 * octet_at buf 6 + octet_at buf 7
                   ns_count := 256 * octet_at buf 8 + octet_at buf 9
                   ar_count := 256 * octet_at buf 10 + octet_at buf 11 }
               _question_list := question_list }, p) := by
  have ht : ¬ (((256 * octet_at buf 2 + octet_at buf 3) &&& 0x8000) >>> 15 ≠ 0) := by
    rw [qr_test_octet]; omega
  unfold dns_query.construct
  rw [header_fields P buf h]
  exact if_neg ht

/-- The question list in terms of the question loop. -/
theorem decode_questions_query (P : Platform) (buf : List Octet) (msg_len : Nat)
    (h : 12 ≤ buf.length) (hqr : octet_at buf 2 < 128) :
    decode_questions P buf msg_len =
      match read_questions P buf (256 * octet_at buf 4 + octet_at buf 5) 12 [] with
      | .error e => .error e
      | .ok (question_list, _) => .ok question_list := by
  unfold decode_questions dns_query.ctor
  rw [construct_query P buf msg_len h hqr]
  cases read_questions P buf (256 * octet_at buf 4 + octet_at buf 5) 12 [] with
  | error e => rfl
  | ok r => rfl

theorem decode_questions_response (P : Platform) (buf : List Octet) (msg_len : Nat)
    (h : 12 ≤ buf.length) (hqr : 128 ≤ octet_at buf 2) :
    decode_questions P buf msg_len = .error .not_a_query := by
  unfold decode_questions dns_query.ctor
  rw [construct_response P buf msg_len h hqr]

theorem octet_at_append (hdr body : List Octet) (i : Nat) (h : i < hdr.length) :
    octet_at (hdr ++ body) i = octet_at hdr i := by
  unfold octet_at
  rw [List.getD_append _ _ _ _ h]

/-! ## The question loop never reports a response -/

theorem read_labels_ne_not_a_query (P : Platform) (buf : List Octet) :
    ∀ (fuel p : Nat) (acc : dns_name),
      read_labels P buf fuel p acc ≠ .error .not_a_query := by
  intro fuel
  induction fuel with
  | zero => intro p acc; simp [read_labels]
  | succ f ih =>
    intro p acc
    rw [read_labels]
    split
    · simp
    · dsimp only
      split
      · simp
      · split
        · simp
        · split
          · exact ih _ _
          · simp

theorem read_question_ne_not_a_query (P : Platform) (buf : List Octet) (p : Nat) :
    read_question P buf p ≠ .error .not_a_query := by
  unfold read_question
  have h := read_labels_ne_not_a_query P buf (buf.length + 1) p []
  split
  · rename_i e he
    intro hc
    apply h
    rw [he]
    injection hc with hc
    rw [hc]
  · split <;> simp

theorem read_questions_ne_not_a_query (P : Platform) (buf : List Octet) :
    ∀ (n p : Nat) (acc : List message_question),
      read_questions P buf n p acc ≠ .error .not_a_query := by
  intro n
  induction n with
  | zero => intro p acc; simp [read_questions]
  | succ n ih =>
    intro p acc
    rw [read_questions]
    have h := read_question_ne_not_a_query P buf p
    split
    · rename_i e he
      intro hc
      apply h
      rw [he]
      injection hc with hc
      rw [hc]
    · exact ih _ _

/-! ## The canonical string -/

theorem to_string_foldl (name : dns_name) :
    ∀ r : List Octet,
      name.foldl (fun r v => r ++ (if v.length = 0 then v else v ++ [dot])) r
        = r ++ dns_name.to_string name := by
  induction name with
  | nil => intro r; simp [dns_name.to_string]
  | cons v name ih =>
    intro r
    simp only [dns_name.to_string, List.foldl_cons, List.nil_append]
    rw [ih (r ++ _), ih (if v.length = 0 then v else v ++ [dot])]
    simp

theorem to_string_nil : dns_name.to_string [] = [] := rfl

theorem to_string_cons (v : List Octet) (name : dns_name) :
    dns_name.to_string (v :: name)
      = (if v.length = 0 then v else v ++ [dot]) ++ dns_name.to_string name := by
  have h := to_string_foldl name (if v.length = 0 then v else v ++ [dot])
  simpa [dns_name.to_string] using h

theorem to_string_eq_canonical (name : dns_name) :
    dns_name.to_string name = canonical_string name := by
  induction name with
  | nil => rfl
  | cons v name ih =>
    rw [to_string_cons, ih]
    cases v with
    | nil => simp [canonical_string]
    | cons c v => simp [canonical_string]

theorem to_string_replicate_nil (n : Nat) :
    dns_name.to_string (List.replicate n []) = [] := by
  induction n with
  | zero => rfl
  | succ n ih => rw [List.replicate_succ, to_string_cons, ih]; rfl

/-- The canonical string of a decoded name: every label, each followed by a
dot; the root label adds nothing. -/
theorem to_string_decoded (ls : List (List Octet)) (hwf : well_formed_labels ls) :
    dns_name.to_string (ls ++ [[]]) = (ls.map (fun v => v ++ [dot])).flatten := by
  induction ls with
  | nil => rfl
  | cons l ls ih =>
    have hl := hwf l (List.mem_cons_self l ls)
    have hne : l.length ≠ 0 := by omega
    rw [List.cons_append, to_string_cons,
      ih (fun x hx => hwf x (List.mem_cons_of_mem l hx))]
    simp [hne]

/-! ## Whole messages -/

/-- The constructor's result once the question loop has returned. -/
theorem ctor_of_read_questions (P : Platform) (buf : List Octet) (msg_len : Nat)
    (h : 12 ≤ buf.length) (hqr : octet_at buf 2 < 128)
    (l : List message_question) (p : Nat)
    (hr : read_questions P buf (256 * octet_at buf 4 + octet_at buf 5) 12 [] = .ok (l, p)) :
    ∃ query, dns_query.ctor P buf msg_len = .ok query ∧ query.get_question_list = l := by
  unfold dns_query.ctor
  rw [construct_query P buf msg_len h hqr, hr]
  exact ⟨_, rfl, rfl⟩

/-- The constructor's result once the question loop has thrown. -/
theorem ctor_of_read_questions_error (P : Platform) (buf : List Octet) (msg_len : Nat)
    (h : 12 ≤ buf.length) (hqr : octet_at buf 2 < 128) (e : decode_fault)
    (hr : read_questions P buf (256 * octet_at buf 4 + octet_at buf 5) 12 [] = .error e) :
    dns_query.ctor P buf msg_len = .error e := by
  unfold dns_query.ctor
  rw [construct_query P buf msg_len h hqr, hr]

/-- A query whose question section is exactly `qs`: the question loop returns
the questions in wire order, whatever follows them in the buffer. -/
theorem read_questions_of_message (P : Platform) (hdr : List Octet) (qs : List wire_question)
    (tail : List Octet) (hlen : hdr.length = 12) (hwf : well_formed_questions qs) :
    read_questions P (hdr ++ encode_questions qs ++ tail) qs.length 12 []
      = .ok (qs.map (decoded P), 12 + (encode_questions qs).length) := by
  have h := read_questions_encoded P qs (hdr ++ encode_questions qs ++ tail) hdr tail []
    hwf (by simp)
  rw [hlen] at h
  simpa using h

/-! ## Sign extension in the qtype and qclass expression -/

theorem mul_pow_two_or (i a b : Nat) : 2 ^ i * a ||| 2 ^ i * b = 2 ^ i * (a ||| b) := by
  apply Nat.eq_of_testBit_eq
  intro j
  simp only [Nat.testBit_or, Nat.testBit_mul_pow_two, Bool.and_or_distrib_left]

theorem or_low_octet (b : Nat) (hb : b < 256) : b ||| 255 = 255 := by
  apply Nat.eq_of_testBit_eq
  intro j
  have e : (255 : Nat) = 2 ^ 8 - 1 := by norm_num
  rw [Nat.testBit_or, e, Nat.testBit_two_pow_sub_one]
  by_cases hj : j < 8
  · simp [hj]
  · have hp : (2 : Nat) ^ 8 ≤ 2 ^ j := Nat.pow_le_pow_right (by norm_num) (by omega)
    have hlt : b < 2 ^ j := by omega
    simp [hj, Nat.testBit_lt_two_pow hlt]

/-- With a signed `char` and a little-endian host, an octet of 0x80 or more
at the cursor is sign-extended over the shifted octet: the field comes out
with its low octet forced to 0xFF, whatever the second octet is. -/
theorem question_u16_sign_extended (P : Platform) (a b : Octet)
    (hle : P.little_endian = true) (hs : P.char_signed = true) (ha : 128 ≤ a.val) :
    question_u16 P a b = 256 * a.val + 255 := by
  have ha1 := a.isLt
  have hb := b.isLt
  have hx : (int_of_char P b <<< 8) % 2 ^ 32 % 2 ^ 16 = 2 ^ 8 * b.val := by
    unfold int_of_char
    rw [Nat.shiftLeft_eq]
    split <;> omega
  have hy : int_of_char P a % 2 ^ 16 = 2 ^ 8 * 255 + a.val := by
    unfold int_of_char
    simp [hs, ha]
    omega
  have hor : 2 ^ 8 * b.val ||| (2 ^ 8 * 255 + a.val) = 2 ^ 8 * 255 + a.val := by
    rw [Nat.mul_add_lt_is_or (by omega) 255, ← Nat.or_assoc, mul_pow_two_or,
      or_low_octet b.val hb]
  unfold question_u16 utility.ntoh
  rw [or_mod_two_pow, hx, hy, hor, hle, if_pos rfl, byteswap_two]
  omega

/-- The constructor on a message given as header and body, once the question
loop has returned. -/
theorem ctor_message_ok (P : Platform) (hdr body : List Octet) (msg_len : Nat)
    (hlen : hdr.length = 12) (hqr : octet_at hdr 2 < 128)
    (l : List message_question) (p : Nat)
    (hr : read_questions P (hdr ++ body) (256 * octet_at hdr 4 + octet_at hdr 5) 12 []
      = .ok (l, p)) :
    ∃ query, dns_query.ctor P (hdr ++ body) msg_len = .ok query
      ∧ query.get_question_list = l := by
  have h12 : 12 ≤ (hdr ++ body).length := by rw [List.length_append]; omega
  have h2 : octet_at (hdr ++ body) 2 = octet_at hdr 2 := octet_at_append _ _ _ (by omega)
  have h4 : octet_at (hdr ++ body) 4 = octet_at hdr 4 := octet_at_append _ _ _ (by omega)
  have h5 : octet_at (hdr ++ body) 5 = octet_at hdr 5 := octet_at_append _ _ _ (by omega)
  exact ctor_of_read_questions P _ msg_len h12 (by rw [h2]; exact hqr) _ _
    (by rw [h4, h5]; exact hr)

/-- The constructor on a message given as header and body, once the question
loop has thrown. -/
theorem ctor_message_error (P : Platform) (hdr body : List Octet) (msg_len : Nat)
    (hlen : hdr.length = 12) (hqr : octet_at hdr 2 < 128) (e : decode_fault)
    (hr : read_questions P (hdr ++ body) (256 * octet_at hdr 4 + octet_at hdr 5) 12 []
      = .error e) :
    dns_query.ctor P (hdr ++ body) msg_len = .error e := by
  have h12 : 12 ≤ (hdr ++ body).length := by rw [List.length_append]; omega
  have h2 : octet_at (hdr ++ body) 2 = octet_at hdr 2 := octet_at_append _ _ _ (by omega)
  have h4 : octet_at (hdr ++ body) 4 = octet_at hdr 4 := octet_at_append _ _ _ (by omega)
  have h5 : octet_at (hdr ++ body) 5 = octet_at hdr 5 := octet_at_append _ _ _ (by omega)
  exact ctor_of_read_questions_error P _ msg_len h12 (by rw [h2]; exact hqr) _
    (by rw [h4, h5]; exact hr)

theorem decode_of_ctor_ok (P : Platform) (buf : List Octet) (msg_len : Nat) (query : dns_query)
    (h : dns_query.ctor P buf msg_len = .ok query) :
    decode_questions P buf msg_len = .ok query.get_question_list := by
  unfold decode_questions
  rw [h]

theorem decode_of_ctor_error (P : Platform) (buf : List Octet) (msg_len : Nat)
    (e : decode_fault) (h : dns_query.ctor P buf msg_len = .error e) :
    decode_questions P buf msg_len = .error e := by
  unfold decode_questions
  rw [h]

/-! ## Zero octets after the header -/

theorem question_u16_zero (P : Platform) : question_u16 P 0 0 = 0 := by
  obtain ⟨le, sg⟩ := P
  cases le <;> cases sg <;> rfl

theorem decoded_root_question (P : Platform) :
    decoded P root_question = { qname := [[]], qtype := 0, qclass := 0 } := by
  simp [decoded, root_question, question_u16_zero]

theorem encode_questions_root (n : Nat) :
    encode_questions (List.replicate n root_question) = List.replicate (5 * n) 0 := by
  induction n with
  | zero => rfl
  | succ n ih =>
    have e : 5 * (n + 1) = 5 + 5 * n := by omega
    rw [List.replicate_succ, encode_questions, ih, e, List.replicate_add]
    rfl

theorem well_formed_questions_root (n : Nat) :
    well_formed_questions (List.replicate n root_question) := by
  intro q hq
  rw [List.eq_of_mem_replicate hq]
  intro l hl
  simp [root_question] at hl

/-- The shell's buffer after a datagram of at most 512 octets. -/
theorem receive_buffer_short (d : List Octet) (h : d.length ≤ 512) :
    receive_buffer d = d ++ List.replicate (512 - d.length) 0 := by
  unfold receive_buffer
  rw [List.take_of_length_le h]

theorem receive_buffer_length (d : List Octet) : 12 ≤ (receive_buffer d).length := by
  unfold receive_buffer
  simp
  omega

/-- A header with QR clear that announces `n` questions, followed by zero
octets only, at least five for each question: the walk reads `n` times a root
name with qtype 0 and qclass 0. -/
theorem read_questions_zero_padded (P : Platform) (hdr : List Octet) (n pad : Nat)
    (hlen : hdr.length = 12) (hpad : 5 * n ≤ pad) :
    read_questions P (hdr ++ List.replicate pad 0) n 12 []
      = .ok (List.replicate n { qname := [[]], qtype := 0, qclass := 0 }, 12 + 5 * n) := by
  have e : hdr ++ List.replicate pad 0
      = hdr ++ encode_questions (List.replicate n root_question)
          ++ List.replicate (pad - 5 * n) 0 := by
    rw [encode_questions_root, List.append_assoc, ← List.replicate_add]
    congr 2
    omega
  have h := read_questions_of_message P hdr (List.replicate n root_question)
    (List.replicate (pad - 5 * n) 0) hlen (well_formed_questions_root n)
  rw [← e] at h
  simpa [decoded_root_question, encode_questions_root] using h

/-- The constructor on a header with QR clear followed by zero octets only. -/
theorem ctor_zero_padded (P : Platform) (hdr : List Octet) (n pad msg_len : Nat)
    (hlen : hdr.length = 12) (hqr : octet_at hdr 2 < 128)
    (hqd : 256 * octet_at hdr 4 + octet_at hdr 5 = n) (hpad : 5 * n ≤ pad) :
    ∃ query, dns_query.ctor P (hdr ++ List.replicate pad 0) msg_len = .ok query
      ∧ query.get_question_list = List.replicate n root_entry :=
  ctor_message_ok P hdr _ msg_len hlen hqr _ _
    (by rw [hqd]; exact read_questions_zero_padded P hdr n pad hlen hpad)

/-- The constructor on a header with QR clear that announces a question,
followed by an octet of 64 or more. -/
theorem ctor_compression_first (P : Platform) (hdr stale : List Octet) (c : Octet)
    (n msg_len : Nat) (hlen : hdr.length = 12) (hqr : octet_at hdr 2 < 128)
    (hqd : 256 * octet_at hdr 4 + octet_at hdr 5 = n) (hn : 1 ≤ n) (hc : 64 ≤ c.val) :
    dns_query.ctor P (hdr ++ c :: stale) msg_len = .error .has_compression := by
  obtain ⟨m, hm⟩ : ∃ m, n = ([] : List wire_question).length + (m + 1) :=
    ⟨n - 1, by rw [List.length_nil]; omega⟩
  have hr := read_questions_compression P [] (hdr ++ c :: stale) hdr stale [] c [] m
    (by intro q hq; cases hq) (by intro l hl; cases hl) hc rfl
  rw [hlen] at hr
  apply ctor_message_error P hdr _ msg_len hlen hqr
  rw [hqd, hm]
  exact hr

/-- The header member of a constructed query is the decoded header. -/
theorem ctor_header (P : Platform) (buf : List Octet) (msg_len : Nat) (query : dns_query)
    (h : dns_query.ctor P buf msg_len = .ok query) :
    message_header.ctor P buf = .ok query._header := by
  unfold dns_query.ctor dns_query.construct at h
  cases hh : message_header.ctor P buf with
  | error e => rw [hh] at h; cases h
  | ok header =>
    rw [hh] at h
    dsimp only at h
    split at h
    · cases h
    · rename_i q p hc
      split at hc
      · cases hc
      · split at hc
        · cases hc
        · injection hc with hc
          injection hc with hc1 hc2
          injection h with h
          rw [← h, ← hc1]

theorem getD_replicate_zero (n i : Nat) : (List.replicate n (0 : Octet)).getD i 0 = 0 := by
  rw [List.getD_eq_getElem?_getD, List.getElem?_replicate]
  split <;> rfl

/-- The shell's buffer holds the datagram's octets, and zero where the
datagram has none. -/
theorem octet_at_receive_buffer (d : List Octet) (h : d.length ≤ 512) (i : Nat) :
    octet_at (receive_buffer d) i = octet_at d i := by
  rw [receive_buffer_short d h]
  unfold octet_at
  by_cases hi : i < d.length
  · rw [List.getD_append _ _ _ _ hi]
  · rw [List.getD_append_right _ _ _ _ (by omega), getD_replicate_zero,
      List.getD_eq_default _ _ (by omega)]

/-! ## Cursor positions inside a question section -/

theorem encode_labels_append (a b : List (List Octet)) :
    encode_labels (a ++ b) = encode_labels a ++ encode_labels b := by
  induction a with
  | nil => rfl
  | cons l a ih => simp [encode_labels, ih]

theorem encode_questions_append (a b : List wire_question) :
    encode_questions (a ++ b) = encode_questions a ++ encode_questions b := by
  induction a with
  | nil => rfl
  | cons q a ih => simp [encode_questions, ih]

/-- One iteration of the label loop on a label of 1 to 63 octets: the label is
appended and the cursor moves by its length plus one. -/
theorem read_labels_step (P : Platform) (buf pre rest l : List Octet) (acc : dns_name)
    (fuel : Nat) (hl1 : 1 ≤ l.length) (hl2 : l.length ≤ 63)
    (hb : buf = pre ++ (length_octet l :: (l ++ rest))) :
    read_labels P buf (fuel + 1) pre.length acc
      = read_labels P buf fuel (pre.length + (l.length + 1)) (acc ++ [l]) := by
  have hv : (length_octet l).val = l.length := length_octet_val l hl2
  have hsz : size_of_char P (length_octet l) = l.length := by
    rw [size_of_char_small P _ (by omega), hv]
  have hget : buf[pre.length]? = some (length_octet l) := by
    rw [hb]; exact getElem?_at_prefix _ _ _
  have hlab : (buf.drop (pre.length + 1)).take l.length = l := by
    rw [hb]; exact take_drop_at_prefix _ _ _ _
  have hlen : buf.length = pre.length + 1 + l.length + rest.length := by
    rw [hb]; simp; omega
  have hne : l.length ≠ 0 := by omega
  have hnb : ¬ (buf.length < pre.length + 1 + l.length) := by omega
  have hn63 : ¬ (l.length > 63) := by omega
  rw [read_labels]
  simp only [hget, hsz, hn63, hnb, if_false, hne, ne_eq, not_false_eq_true, if_true, hlab]
  rw [Nat.add_assoc]

theorem length_encode_labels (ls : List (List Octet)) :
    (encode_labels ls).length = (ls.map (fun l => l.length + 1)).sum := by
  induction ls with
  | nil => rfl
  | cons l ls ih => simp [encode_labels, ih]; omega

/-! ## The cursor only moves forward -/

theorem read_labels_cursor (P : Platform) (buf : List Octet) :
    ∀ (fuel p : Nat) (acc name : dns_name) (p1 : Nat),
      read_labels P buf fuel p acc = .ok (name, p1) → p < p1 := by
  intro fuel
  induction fuel with
  | zero => intro p acc name p1 h; simp [read_labels] at h
  | succ f ih =>
    intro p acc name p1 h
    rw [read_labels] at h
    split at h
    · cases h
    · dsimp only at h
      split at h
      · cases h
      · split at h
        · cases h
        · split at h
          · have := ih _ _ _ _ h
            omega
          · injection h with h
            injection h with _ h2
            omega

theorem read_question_cursor (P : Platform) (buf : List Octet) (p : Nat)
    (q : message_question) (p1 : Nat) (h : read_question P buf p = .ok (q, p1)) :
    p < p1 := by
  unfold read_question at h
  split at h
  · cases h
  · rename_i name pn hl
    have := read_labels_cursor P buf _ _ _ _ _ hl
    split at h
    · cases h
    · injection h with h
      injection h with _ h2
      omega

theorem read_questions_cursor (P : Platform) (buf : List Octet) :
    ∀ (n p : Nat) (acc l : List message_question) (e : Nat),
      read_questions P buf n p acc = .ok (l, e) → p ≤ e := by
  intro n
  induction n with
  | zero =>
    intro p acc l e h
    simp only [read_questions] at h
    injection h with h
    injection h with _ h2
    omega
  | succ n ih =>
    intro p acc l e h
    rw [read_questions] at h
    split at h
    · cases h
    · rename_i q p1 hq
      have h1 := read_question_cursor P buf p q p1 hq
      have h2 := ih _ _ _ _ h
      omega

/-! ## Fuel -/

/-- Any two amounts of fuel that exceed the distance to the end of the buffer
give the same run of the label loop: the loop never runs out of fuel. -/
theorem read_labels_fuel (P : Platform) (buf : List Octet) :
    ∀ (f g p : Nat) (acc : dns_name), buf.length < f + p → buf.length < g + p →
      read_labels P buf f p acc = read_labels P buf g p acc := by
  intro f
  induction f with
  | zero =>
    intro g p acc hf _
    have hnone : buf[p]? = none := List.getElem?_eq_none (by omega)
    cases g with
    | zero => rfl
    | succ g => rw [read_labels, read_labels, hnone]
  | succ f ih =>
    intro g p acc hf hg
    cases g with
    | zero =>
      have hnone : buf[p]? = none := List.getElem?_eq_none (by omega)
      rw [read_labels, read_labels, hnone]
    | succ g =>
      rw [read_labels, read_labels]
      cases buf[p]? with
      | none => rfl
      | some c =>
        dsimp only
        by_cases h1 : size_of_char P c > 63
        · rw [if_pos h1, if_pos h1]
        · rw [if_neg h1, if_neg h1]
          by_cases h2 : buf.length < p + 1 + size_of_char P c
          · rw [if_pos h2, if_pos h2]
          · rw [if_neg h2, if_neg h2]
            by_cases h3 : size_of_char P c ≠ 0
            · rw [if_pos h3, if_pos h3]
              exact ih g (p + size_of_char P c + 1) _ (by omega) (by omega)
            · rw [if_neg h3, if_neg h3]

/-! ## What the question loop depends on -/

theorem drop_congr (b1 b2 : List Octet) (lo a : Nat)
    (hag : ∀ i, lo ≤ i → b1[i]? = b2[i]?) (ha : lo ≤ a) :
    b1.drop a = b2.drop a := by
  apply List.ext_getElem?
  intro n
  rw [List.getElem?_drop, List.getElem?_drop]
  exact hag _ (by omega)

theorem getD_congr (b1 b2 : List Octet) (i : Nat) (h : b1[i]? = b2[i]?) :
    b1.getD i 0 = b2.getD i 0 := by
  rw [List.getD_eq_getElem?_getD, List.getD_eq_getElem?_getD, h]

/-- Two buffers of one length that agree from offset `lo` on give the same
run of the label loop from any cursor at or after `lo`. -/
theorem read_labels_congr (P : Platform) (b1 b2 : List Octet) (lo : Nat)
    (hlen : b1.length = b2.length) (hag : ∀ i, lo ≤ i → b1[i]? = b2[i]?) :
    ∀ (fuel p : Nat) (acc : dns_name), lo ≤ p →
      read_labels P b1 fuel p acc = read_labels P b2 fuel p acc := by
  intro fuel
  induction fuel with
  | zero => intro p acc _; rfl
  | succ f ih =>
    intro p acc hp
    rw [read_labels, read_labels, hag p hp, hlen, drop_congr b1 b2 lo (p + 1) hag (by omega)]
    cases b2[p]? with
    | none => rfl
    | some c =>
      dsimp only
      by_cases h1 : size_of_char P c > 63
      · rw [if_pos h1, if_pos h1]
      · rw [if_neg h1, if_neg h1]
        by_cases h2 : b2.length < p + 1 + size_of_char P c
        · rw [if_pos h2, if_pos h2]
        · rw [if_neg h2, if_neg h2]
          by_cases h3 : size_of_char P c ≠ 0
          · rw [if_pos h3, if_pos h3]
            exact ih (p + size_of_char P c + 1) _ (by omega)
          · rw [if_neg h3, if_neg h3]

theorem read_question_congr (P : Platform) (b1 b2 : List Octet) (lo : Nat)
    (hlen : b1.length = b2.length) (hag : ∀ i, lo ≤ i → b1[i]? = b2[i]?)
    (p : Nat) (hp : lo ≤ p) :
    read_question P b1 p = read_question P b2 p := by
  unfold read_question
  rw [hlen, read_labels_congr P b1 b2 lo hlen hag (b2.length + 1) p [] hp]
  cases hr : read_labels P b2 (b2.length + 1) p [] with
  | error e => rfl
  | ok r =>
    obtain ⟨name, p1⟩ := r
    have hc := read_labels_cursor P b2 _ _ _ _ _ hr
    dsimp only
    rw [getD_congr b1 b2 p1 (hag _ (by omega)),
      getD_congr b1 b2 (p1 + 1) (hag _ (by omega)),
      getD_congr b1 b2 (p1 + 2) (hag _ (by omega)),
      getD_congr b1 b2 (p1 + 3) (hag _ (by omega))]

theorem read_questions_congr (P : Platform) (b1 b2 : List Octet) (lo : Nat)
    (hlen : b1.length = b2.length) (hag : ∀ i, lo ≤ i → b1[i]? = b2[i]?) :
    ∀ (n p : Nat) (acc : List message_question), lo ≤ p →
      read_questions P b1 n p acc = read_questions P b2 n p acc := by
  intro n
  induction n with
  | zero => intro p acc _; rfl
  | succ n ih =>
    intro p acc hp
    rw [read_questions, read_questions, read_question_congr P b1 b2 lo hlen hag p hp]
    cases hr : read_question P b2 p with
    | error e => rfl
    | ok r =>
      obtain ⟨q, p1⟩ := r
      have hc := read_question_cursor P b2 p q p1 hr
      exact ih p1 _ (by omega)

/-! ## A successful run reads only the octets it walks over -/

theorem take_drop_window (b1 b2 : List Octet) (a n : Nat)
    (hag : ∀ i, a ≤ i → i < a + n → b1[i]? = b2[i]?) :
    (b1.drop a).take n = (b2.drop a).take n := by
  apply List.ext_getElem?
  intro k
  rw [List.getElem?_take, List.getElem?_take]
  split
  · rw [List.getElem?_drop, List.getElem?_drop]
    exact hag _ (by omega) (by omega)
  · rfl

theorem length_gt_of_agree (b1 b2 : List Octet) (k : Nat)
    (h : b1[k]? = b2[k]?) (hk : k < b1.length) : k < b2.length := by
  by_contra hc
  rw [List.getElem?_eq_getElem hk, List.getElem?_eq_none (by omega)] at h
  cases h

/-- A run of the label loop that returns with the cursor at `e` returns the
same on every buffer that agrees with the first between the starting cursor
and `e`. -/
theorem read_labels_window (P : Platform) (b1 b2 : List Octet) :
    ∀ (fuel p : Nat) (acc name : dns_name) (e : Nat),
      read_labels P b1 fuel p acc = .ok (name, e) →
      (∀ i, p ≤ i → i < e → b1[i]? = b2[i]?) →
      read_labels P b2 fuel p acc = .ok (name, e) := by
  intro fuel
  induction fuel with
  | zero => intro p acc name e h; simp [read_labels] at h
  | succ f ih =>
    intro p acc name e h hag
    have hc := read_labels_cursor P b1 _ _ _ _ _ h
    rw [read_labels] at h ⊢
    rw [← hag p (Nat.le_refl p) hc]
    cases hg : b1[p]? with
    | none => rw [hg] at h; cases h
    | some c =>
      rw [hg] at h
      dsimp only at h ⊢
      have hp2 : p < b2.length := by
        apply length_gt_of_agree b1 b2 p (hag p (Nat.le_refl p) hc)
        by_contra hcon
        rw [List.getElem?_eq_none (by omega)] at hg
        cases hg
      by_cases h1 : size_of_char P c > 63
      · rw [if_pos h1] at h; cases h
      · rw [if_neg h1] at h ⊢
        by_cases h2 : b1.length < p + 1 + size_of_char P c
        · rw [if_pos h2] at h; cases h
        · rw [if_neg h2] at h
          by_cases h3 : size_of_char P c ≠ 0
          · rw [if_pos h3] at h
            have hc2 := read_labels_cursor P b1 _ _ _ _ _ h
            have hb2 : ¬ (b2.length < p + 1 + size_of_char P c) := by
              have := length_gt_of_agree b1 b2 (p + size_of_char P c)
                (hag _ (by omega) (by omega)) (by omega)
              omega
            have hlab := take_drop_window b1 b2 (p + 1) (size_of_char P c)
              (fun i hi1 hi2 => hag i (by omega) (by omega))
            rw [if_neg hb2, if_pos h3, ← hlab]
            exact ih _ _ _ _ h (fun i hi1 hi2 => hag i (by omega) hi2)
          · rw [if_neg h3] at h
            have hz : size_of_char P c = 0 := by omega
            have hb2 : ¬ (b2.length < p + 1 + size_of_char P c) := by omega
            have hlab := take_drop_window b1 b2 (p + 1) (size_of_char P c)
              (fun i hi1 hi2 => absurd hi2 (by omega))
            rw [if_neg hb2, if_neg h3, ← hlab]
            exact h

theorem read_question_window (P : Platform) (b1 b2 : List Octet) (p : Nat)
    (q : message_question) (e : Nat)
    (h : read_question P b1 p = .ok (q, e))
    (hag : ∀ i, p ≤ i → i < e → b1[i]? = b2[i]?) :
    read_question P b2 p = .ok (q, e) := by
  unfold read_question at h ⊢
  cases hr : read_labels P b1 (b1.length + 1) p [] with
  | error err => rw [hr] at h; cases h
  | ok r =>
    obtain ⟨name, p1⟩ := r
    rw [hr] at h
    dsimp only at h
    by_cases hb : b1.length < p1 + 4
    · rw [if_pos hb] at h; cases h
    · rw [if_neg hb] at h
      injection h with h
      injection h with hq he
      have hf1 := read_labels_fuel P b1 (b1.length + 1) (b1.length + b2.length + 1) p []
        (by omega) (by omega)
      rw [hf1] at hr
      have hw := read_labels_window P b1 b2 _ _ _ _ _ hr
        (fun i hi1 hi2 => hag i hi1 (by omega))
      have hf2 := read_labels_fuel P b2 (b2.length + 1) (b1.length + b2.length + 1) p []
        (by omega) (by omega)
      rw [hf2, hw]
      dsimp only
      have hc := read_labels_cursor P b1 _ _ _ _ _ hr
      have hb2 : ¬ (b2.length < p1 + 4) := by
        have := length_gt_of_agree b1 b2 (p1 + 3) (hag _ (by omega) (by omega)) (by omega)
        omega
      rw [if_neg hb2, ← hq, ← he,
        getD_congr b1 b2 p1 (hag _ (by omega) (by omega)),
        getD_congr b1 b2 (p1 + 1) (hag _ (by omega) (by omega)),
        getD_congr b1 b2 (p1 + 2) (hag _ (by omega) (by omega)),
        getD_congr b1 b2 (p1 + 3) (hag _ (by omega) (by omega))]

/-- A run of the question loop that returns with the cursor at `e` returns the
same on every buffer that agrees with the first between the starting cursor
and `e`. -/
theorem read_questions_window (P : Platform) (b1 b2 : List Octet) :
    ∀ (n p : Nat) (acc l : List message_question) (e : Nat),
      read_questions P b1 n p acc = .ok (l, e) →
      (∀ i, p ≤ i → i < e → b1[i]? = b2[i]?) →
      read_questions P b2 n p acc = .ok (l, e) := by
  intro n
  induction n with
  | zero => intro p acc l e h _; exact h
  | succ n ih =>
    intro p acc l e h hag
    rw [read_questions] at h ⊢
    cases hq : read_question P b1 p with
    | error err => rw [hq] at h; cases h
    | ok r =>
      obtain ⟨q, p1⟩ := r
      rw [hq] at h
      dsimp only at h
      have hc1 := read_question_cursor P b1 p q p1 hq
      have hc2 := read_questions_cursor P b1 _ _ _ _ _ h
      rw [read_question_window P b1 b2 p q p1 hq
        (fun i hi1 hi2 => hag i hi1 (by omega))]
      exact ih _ _ _ _ h (fun i hi1 hi2 => hag i (by omega) hi2)

/-! ## A question section that is cut off, in a zeroed buffer -/

theorem encode_question_zero (ls : List (List Octet)) :
    encode_question { labels := ls, t0 := 0, t1 := 0, c0 := 0, c1 := 0 }
      = encode_labels ls ++ List.replicate 5 0 := rfl

theorem zero_filled_tail (tq : List Octet) (h : tq.length < 4) :
    tq ++ List.replicate (4 - tq.length) 0
      = [tq.getD 0 0, tq.getD 1 0, tq.getD 2 0, tq.getD 3 0] := by
  match tq, h with
  | [], _ => rfl
  | [_], _ => rfl
  | [_, _], _ => rfl
  | [_, _, _], _ => rfl
  | _ :: _ :: _ :: _ :: _, h => exact absurd h (by simp)

theorem replicate_split (a b : Nat) (h : a ≤ b) :
    List.replicate b (0 : Octet) = List.replicate a 0 ++ List.replicate (b - a) 0 := by
  rw [← List.replicate_add]
  congr 1
  omega

/-- Whole questions, one more question, then zero octets only: the walk reads
the questions and then a root question from every five zero octets. -/
theorem ctor_zero_completed (P : Platform) (hdr : List Octet) (qs : List wire_question)
    (q : wire_question) (m pad msg_len : Nat)
    (hlen : hdr.length = 12) (hqr : octet_at hdr 2 < 128)
    (hqd : 256 * octet_at hdr 4 + octet_at hdr 5 = qs.length + 1 + m)
    (hwf : well_formed_questions qs) (hq : well_formed_labels q.labels)
    (hpad : 5 * m ≤ pad) :
    ∃ query,
      dns_query.ctor P
          (hdr ++ (encode_questions qs ++ (encode_question q ++ List.replicate pad 0)))
          msg_len = .ok query
      ∧ query.get_question_list
          = qs.map (decoded P) ++ decoded P q :: List.replicate m root_entry := by
  have hall : well_formed_questions (qs ++ q :: List.replicate m root_question) := by
    intro x hx
    rw [List.mem_append, List.mem_cons] at hx
    rcases hx with hx | hx | hx
    · exact hwf x hx
    · rw [hx]; exact hq
    · exact well_formed_questions_root m x hx
  have e : hdr ++ (encode_questions qs ++ (encode_question q ++ List.replicate pad 0))
      = hdr ++ encode_questions (qs ++ q :: List.replicate m root_question)
          ++ List.replicate (pad - 5 * m) 0 := by
    rw [encode_questions_append, encode_questions, encode_questions_root,
      replicate_split (5 * m) pad hpad]
    simp only [List.append_assoc]
  have hr := read_questions_of_message P hdr (qs ++ q :: List.replicate m root_question)
    (List.replicate (pad - 5 * m) 0) hlen hall
  rw [← e] at hr
  have hn : (qs ++ q :: List.replicate m root_question).length = qs.length + 1 + m := by
    simp
    omega
  rw [hn] at hr
  obtain ⟨query, h1, h2⟩ := ctor_message_ok P hdr _ msg_len hlen hqr _ _
    (by rw [hqd]; exact hr)
  refine ⟨query, h1, ?_⟩
  rw [h2]
  simp [decoded_root_question, root_entry]

/-- A datagram that becomes whole questions once `k` zero octets are put
after it, received into the shell's buffer with room for them. -/
theorem ctor_cut_off (P : Platform) (hdr d : List Octet) (qs : List wire_question)
    (q : wire_question) (m k msg_len : Nat)
    (hlen : hdr.length = 12) (hqr : octet_at hdr 2 < 128)
    (hqd : 256 * octet_at hdr 4 + octet_at hdr 5 = qs.length + 1 + m)
    (hwf : well_formed_questions qs) (hq : well_formed_labels q.labels)
    (hd : d ++ List.replicate k 0 = hdr ++ (encode_questions qs ++ encode_question q))
    (hroom : d.length + k + 5 * m ≤ 512) :
    ∃ query,
      dns_query.ctor P (receive_buffer d) msg_len = .ok query
      ∧ query.get_question_list
          = qs.map (decoded P) ++ decoded P q :: List.replicate m root_entry := by
  have e : receive_buffer d
      = hdr ++ (encode_questions qs
          ++ (encode_question q ++ List.replicate (512 - d.length - k) 0)) := by
    rw [receive_buffer_short d (by omega), replicate_split k (512 - d.length) (by omega),
      ← List.append_assoc, hd]
    simp only [List.append_assoc]
  rw [e]
  exact ctor_zero_completed P hdr qs q m _ msg_len hlen hqr hqd hwf hq (by omega)

theorem decoded_zero (P : Platform) (ls : List (List Octet)) :
    decoded P { labels := ls, t0 := 0, t1 := 0, c0 := 0, c1 := 0 }
      = { qname := ls ++ [[]], qtype := 0, qclass := 0 } := by
  simp [decoded, question_u16_zero]

theorem length_octet_zero_filled (part : List Octet) (len : Nat) (h : part.length < len) :
    length_octet (part ++ List.replicate (len - part.length) 0) = Fin.ofNat len := by
  unfold length_octet
  congr 1
  rw [List.length_append, List.length_replicate]
  omega

/-! ## Claims -/

/-- C1: for a buffer that holds a 12-byte header with QR clear and qd_count 1
followed by one well-formed question, constructing `dns_query` succeeds and
`get_question_list()` has exactly one entry, whose qname is the encoded labels
in wire order followed by the empty root label and whose canonical string is
those labels each followed by a dot.  On a little-endian host scenario A gives
the name `www.example.com.`, qtype 1, qclass 1 and header id 0x1234. -/
theorem C1_single_question (P : Platform) (hdr : List Octet) (q : wire_question)
    (tail : List Octet) (msg_len : Nat)
    (hlen : hdr.length = 12) (hqr : octet_at hdr 2 < 128)
    (hqd : 256 * octet_at hdr 4 + octet_at hdr 5 = 1)
    (hwf : well_formed_labels q.labels) :
    (∃ query question,
      dns_query.ctor P (hdr ++ encode_question q ++ tail) msg_len = .ok query
      ∧ query.get_question_list = [question]
      ∧ question.qname = q.labels ++ [[]]
      ∧ dns_name.to_string question.qname = (q.labels.map (fun v => v ++ [dot])).flatten)
    ∧ (P.little_endian = true →
        ∃ query,
          dns_query.ctor P scenario_A 33 = .ok query
          ∧ query.get_question_list
              = [{ qname := [ascii "www", ascii "example", ascii "com", []],
                   qtype := 1, qclass := 1 }]
          ∧ query._header.id = 0x1234
          ∧ dns_name.to_string [ascii "www", ascii "example", ascii "com", []]
              = ascii "www.example.com.") := by
  constructor
  · have hwfq : well_formed_questions [q] := by
      intro x hx
      rw [List.mem_singleton] at hx
      rw [hx]; exact hwf
    have hr := read_questions_of_message P hdr [q] tail hlen hwfq
    have he : encode_questions [q] = encode_question q := by simp [encode_questions]
    rw [he] at hr
    have h12 : 12 ≤ (hdr ++ encode_question q ++ tail).length := by simp; omega
    have h2 : octet_at (hdr ++ encode_question q ++ tail) 2 = octet_at hdr 2 := by
      rw [List.append_assoc]; exact octet_at_append _ _ _ (by omega)
    have h4 : octet_at (hdr ++ encode_question q ++ tail) 4 = octet_at hdr 4 := by
      rw [List.append_assoc]; exact octet_at_append _ _ _ (by omega)
    have h5 : octet_at (hdr ++ encode_question q ++ tail) 5 = octet_at hdr 5 := by
      rw [List.append_assoc]; exact octet_at_append _ _ _ (by omega)
    have hn : 256 * octet_at (hdr ++ encode_question q ++ tail) 4
        + octet_at (hdr ++ encode_question q ++ tail) 5 = [q].length := by
      rw [h4, h5, hqd]; rfl
    obtain ⟨query, hq1, hq2⟩ := ctor_of_read_questions P _ msg_len h12 (by rw [h2]; exact hqr)
      _ _ (by rw [hn]; exact hr)
    exact ⟨query, decoded P q, hq1, by simpa using hq2, rfl, to_string_decoded q.labels hwf⟩
  · intro hle
    obtain ⟨le, sg⟩ := P
    simp only at hle
    subst hle
    cases sg
    · exact ⟨_, rfl, rfl, rfl, rfl⟩
    · exact ⟨_, rfl, rfl, rfl, rfl⟩

/-- Witness for C1: scenario A on x86-64. -/
theorem C1_single_question_witness :
    header_A.length = 12 ∧ octet_at header_A 2 < 128
    ∧ 256 * octet_at header_A 4 + octet_at header_A 5 = 1
    ∧ well_formed_labels question_A.labels
    ∧ (∃ query question,
        dns_query.ctor x86_64 (header_A ++ encode_question question_A ++ []) 33 = .ok query
        ∧ query.get_question_list = [question]
        ∧ question.qname = question_A.labels ++ [[]]
        ∧ dns_name.to_string question.qname
            = (question_A.labels.map (fun v => v ++ [dot])).flatten)
    ∧ (∃ query,
        dns_query.ctor x86_64 scenario_A 33 = .ok query
        ∧ query.get_question_list
            = [{ qname := [ascii "www", ascii "example", ascii "com", []],
                 qtype := 1, qclass := 1 }]
        ∧ query._header.id = 0x1234
        ∧ dns_name.to_string [ascii "www", ascii "example", ascii "com", []]
            = ascii "www.example.com.") :=
  ⟨by decide, by decide, by decide, by decide,
    (C1_single_question x86_64 header_A question_A [] 33
      (by decide) (by decide) (by decide) (by decide)).1,
    (C1_single_question x86_64 header_A question_A [] 33
      (by decide) (by decide) (by decide) (by decide)).2 rfl⟩

/-- C2, evaluated on x86-64 (little-endian, signed `char`): the question of
scenario A sent with qclass octets 0x80 0x01 is accepted, its name ends at
offset 29 and its qtype is the big-endian value of the octets at 29 and 30,
but its qclass is decoded as 0x80FF and not as the big-endian value 0x8001 of
the octets at 31 and 32. -/
theorem C2_qclass_sign_extended :
    ∃ question,
      decode_questions x86_64 scenario_QU 33 = .ok [question]
      ∧ read_labels x86_64 scenario_QU scenario_QU.length 12 [] = .ok (question.qname, 29)
      ∧ question.qtype = 256 * octet_at scenario_QU 29 + octet_at scenario_QU 30
      ∧ question.qclass = 0x80FF
      ∧ 256 * octet_at scenario_QU 31 + octet_at scenario_QU 32 = 0x8001 :=
  ⟨{ qname := [ascii "www", ascii "example", ascii "com", []], qtype := 1, qclass := 0x80FF },
    rfl, rfl, rfl, rfl, rfl⟩

/-- C3: for a buffer of at least 12 octets, bit 15 of the decoded flags is the
top bit of the octet at offset 2, and constructing `dns_query` fails with the
not-a-query error exactly when that bit is set: when it is set the failure
occurs whatever the other octets are and no question list exists, when it is
clear that error is never raised. -/
theorem C3_response_rejected (P : Platform) (buf : List Octet) (msg_len : Nat)
    (hlen : 12 ≤ buf.length) :
    (∃ header, message_header.ctor P buf = .ok header
      ∧ (header.flag.testBit 15 = true ↔ 128 ≤ octet_at buf 2))
    ∧ (dns_query.ctor P buf msg_len = .error .not_a_query ↔ 128 ≤ octet_at buf 2)
    ∧ (decode_questions P buf msg_len = .error .not_a_query ↔ 128 ≤ octet_at buf 2) := by
  have h2 := octet_at_lt buf 2
  have h3 := octet_at_lt buf 3
  have hne := read_questions_ne_not_a_query P buf
    (256 * octet_at buf 4 + octet_at buf 5) 12 []
  refine ⟨⟨_, header_fields P buf hlen, ?_⟩, ?_, ?_⟩
  · simp only [Nat.testBit_to_div_mod, decide_eq_true_eq]
    omega
  · constructor
    · intro hc
      by_contra hqr
      unfold dns_query.ctor at hc
      rw [construct_query P buf msg_len hlen (by omega)] at hc
      cases hr : read_questions P buf (256 * octet_at buf 4 + octet_at buf 5) 12 [] with
      | error e =>
        rw [hr] at hc
        apply hne
        rw [hr]
        injection hc with hc
        rw [hc]
      | ok r => rw [hr] at hc; cases hc
    · intro hqr
      unfold dns_query.ctor
      rw [construct_response P buf msg_len hlen hqr]
  · constructor
    · intro hc
      by_contra hqr
      rw [decode_questions_query P buf msg_len hlen (by omega)] at hc
      cases hr : read_questions P buf (256 * octet_at buf 4 + octet_at buf 5) 12 [] with
      | error e =>
        rw [hr] at hc
        apply hne
        rw [hr]
        injection hc with hc
        rw [hc]
      | ok r => rw [hr] at hc; cases hc
    · exact decode_questions_response P buf msg_len hlen

/-- Witness for C3: scenario B, the query of scenario A with flags 0x8100, is
rejected; scenario A is not. -/
theorem C3_response_rejected_witness :
    12 ≤ scenario_B.length ∧ 128 ≤ octet_at scenario_B 2
    ∧ dns_query.ctor x86_64 scenario_B 33 = .error .not_a_query
    ∧ decode_questions x86_64 scenario_B 33 = .error .not_a_query :=
  ⟨by decide, by decide,
    (C3_response_rejected x86_64 scenario_B 33 (by decide)).2.1.mpr (by decide),
    (C3_response_rejected x86_64 scenario_B 33 (by decide)).2.2.mpr (by decide)⟩

/-- C4: in a query whose header announces more questions than the well-formed
ones that follow it, when the walk over the next name reaches, after any
number of well-formed labels, a length octet of 64 or more, constructing
`dns_query` fails with the compression error and no question list exists.
The failure does not depend on what follows that octet: it is the same when
the buffer ends with it. -/
theorem C4_compression_rejected (P : Platform) (hdr : List Octet) (qs : List wire_question)
    (ls : List (List Octet)) (c : Octet) (tail : List Octet) (msg_len : Nat)
    (hlen : hdr.length = 12) (hqr : octet_at hdr 2 < 128)
    (hqd : qs.length < 256 * octet_at hdr 4 + octet_at hdr 5)
    (hwf : well_formed_questions qs) (hls : well_formed_labels ls) (hc : 64 ≤ c.val) :
    dns_query.ctor P (hdr ++ encode_questions qs ++ encode_labels ls ++ c :: tail) msg_len
      = .error .has_compression
    ∧ decode_questions P (hdr ++ encode_questions qs ++ encode_labels ls ++ c :: tail) msg_len
      = .error .has_compression
    ∧ dns_query.ctor P (hdr ++ encode_questions qs ++ encode_labels ls ++ [c]) msg_len
      = .error .has_compression := by
  have key : ∀ t : List Octet,
      dns_query.ctor P (hdr ++ encode_questions qs ++ encode_labels ls ++ c :: t) msg_len
        = .error .has_compression := by
    intro t
    have h12 : 12 ≤ (hdr ++ encode_questions qs ++ encode_labels ls ++ c :: t).length := by
      simp; omega
    have eb : hdr ++ encode_questions qs ++ encode_labels ls ++ c :: t
        = hdr ++ (encode_questions qs ++ (encode_labels ls ++ c :: t)) := by simp
    have h2 : octet_at (hdr ++ encode_questions qs ++ encode_labels ls ++ c :: t) 2
        = octet_at hdr 2 := by
      rw [eb]; exact octet_at_append _ _ _ (by omega)
    have h4 : octet_at (hdr ++ encode_questions qs ++ encode_labels ls ++ c :: t) 4
        = octet_at hdr 4 := by
      rw [eb]; exact octet_at_append _ _ _ (by omega)
    have h5 : octet_at (hdr ++ encode_questions qs ++ encode_labels ls ++ c :: t) 5
        = octet_at hdr 5 := by
      rw [eb]; exact octet_at_append _ _ _ (by omega)
    obtain ⟨m, hm⟩ : ∃ m, 256 * octet_at hdr 4 + octet_at hdr 5 = qs.length + (m + 1) :=
      ⟨256 * octet_at hdr 4 + octet_at hdr 5 - qs.length - 1, by omega⟩
    have hr := read_questions_compression P qs _ hdr t ls c [] m hwf hls hc eb
    rw [hlen] at hr
    apply ctor_of_read_questions_error P _ msg_len h12 (by rw [h2]; exact hqr)
    rw [h4, h5, hm]
    exact hr
  refine ⟨key tail, ?_, key []⟩
  unfold decode_questions
  rw [key tail]

/-- Witness for C4: scenario C, a pointer (0xC0 0x0C) after the label `www`. -/
theorem C4_compression_rejected_witness :
    header_A.length = 12 ∧ octet_at header_A 2 < 128
    ∧ ([] : List wire_question).length < 256 * octet_at header_A 4 + octet_at header_A 5
    ∧ well_formed_questions [] ∧ well_formed_labels [ascii "www"] ∧ 64 ≤ (0xC0 : Octet).val
    ∧ (dns_query.ctor x86_64
          (header_A ++ encode_questions [] ++ encode_labels [ascii "www"] ++ 0xC0 :: [0x0C]) 18
        = .error .has_compression
      ∧ decode_questions x86_64
          (header_A ++ encode_questions [] ++ encode_labels [ascii "www"] ++ 0xC0 :: [0x0C]) 18
        = .error .has_compression
      ∧ dns_query.ctor x86_64
          (header_A ++ encode_questions [] ++ encode_labels [ascii "www"] ++ [0xC0]) 18
        = .error .has_compression) :=
  ⟨by decide, by decide, by decide, by decide, by decide, by decide,
    C4_compression_rejected x86_64 header_A [] [ascii "www"] 0xC0 [0x0C] 18
      (by decide) (by decide) (by decide) (by decide) (by decide) (by decide)⟩

/-- C5 fails: the datagram of scenario D is header A alone (qd_count 1, 12
octets received into the shell's zeroed 512-octet buffer).  Constructing
`dns_query` with `msg_len = 12` does not fail: it yields one question with the
root name, qtype 0 and qclass 0, read from the octets at offsets 12 to 16.
With the same twelve received octets and 0xC0 left at offset 12 of the buffer
the outcome is the compression error, so the octet at offset 12 is read. -/
theorem C5_truncated_accepted :
    decode_questions x86_64 (receive_buffer header_A) 12
      = .ok [{ qname := [[]], qtype := 0, qclass := 0 }]
    ∧ (header_A ++ 0xC0 :: List.replicate 499 0).take 12 = (receive_buffer header_A).take 12
    ∧ decode_questions x86_64 (header_A ++ 0xC0 :: List.replicate 499 0) 12
      = .error .has_compression := by
  have e : receive_buffer header_A = header_A ++ List.replicate 500 0 :=
    receive_buffer_short header_A (by decide)
  have h12 : header_A.length = 12 := by decide
  refine ⟨?_, ?_, ?_⟩
  · obtain ⟨query, hq, hl⟩ := ctor_zero_padded x86_64 header_A 1 500 12
      h12 (by decide) (by decide) (by decide)
    rw [e, decode_of_ctor_ok _ _ _ _ hq, hl]
    rfl
  · rw [e, ← h12, List.take_left, List.take_left]
  · exact decode_of_ctor_error _ _ _ _
      (ctor_compression_first x86_64 header_A (List.replicate 499 0) 0xC0 1 12
        h12 (by decide) (by decide) (by decide) (by decide))

/-- C5 as amended: a datagram with QR clear whose last announced question is
cut off, received into the shell's zeroed 512-octet buffer with room left for
the missing octets, is not rejected, whatever `msg_len` is: the walk goes on
over the zero octets beyond the received length and decodes the question as if
the missing octets were zero.  Cut after whole labels, with no zero octet
received: the name is those labels, qtype and qclass are 0.  Cut inside a
label of announced length 1 to 63: that label is filled up with zero octets.
Cut inside the four octets after the name: the missing ones count as zero.
Every further announced question (`m` of them) is a root name with qtype 0 and
qclass 0.  With the datagram ending right after the header and qd_count 1 that
is one question with the root name.  The octets beyond the received length
decide the outcome: an octet of 64 or more right after the received whole
questions gives the compression error. -/
theorem C5_truncated_walks_on (P : Platform) (hdr : List Octet) (qs : List wire_question)
    (m msg_len : Nat)
    (hlen : hdr.length = 12) (hqr : octet_at hdr 2 < 128)
    (hqd : 256 * octet_at hdr 4 + octet_at hdr 5 = qs.length + 1 + m)
    (hwf : well_formed_questions qs) :
    (∀ ls : List (List Octet), well_formed_labels ls →
      (hdr ++ encode_questions qs ++ encode_labels ls).length + 5 + 5 * m ≤ 512 →
      ∃ query,
        dns_query.ctor P (receive_buffer (hdr ++ encode_questions qs ++ encode_labels ls))
          msg_len = .ok query
        ∧ query.get_question_list
            = qs.map (decoded P)
              ++ { qname := ls ++ [[]], qtype := 0, qclass := 0 }
                :: List.replicate m root_entry)
    ∧ (∀ (ls : List (List Octet)) (len : Nat) (part : List Octet), well_formed_labels ls →
      1 ≤ len → len ≤ 63 → part.length < len →
      (hdr ++ encode_questions qs ++ encode_labels ls ++ Fin.ofNat len :: part).length
        + (len - part.length) + 5 + 5 * m ≤ 512 →
      ∃ query,
        dns_query.ctor P
          (receive_buffer
            (hdr ++ encode_questions qs ++ encode_labels ls ++ Fin.ofNat len :: part))
          msg_len = .ok query
        ∧ query.get_question_list
            = qs.map (decoded P)
              ++ { qname := ls ++ [part ++ List.replicate (len - part.length) 0, []],
                   qtype := 0, qclass := 0 }
                :: List.replicate m root_entry)
    ∧ (∀ (ls : List (List Octet)) (tq : List Octet), well_formed_labels ls →
      tq.length < 4 →
      (hdr ++ encode_questions qs ++ encode_labels ls ++ 0 :: tq).length
        + (4 - tq.length) + 5 * m ≤ 512 →
      ∃ query,
        dns_query.ctor P
          (receive_buffer (hdr ++ encode_questions qs ++ encode_labels ls ++ 0 :: tq))
          msg_len = .ok query
        ∧ query.get_question_list
            = qs.map (decoded P)
              ++ decoded P (zero_filled_question ls tq) :: List.replicate m root_entry)
    ∧ (∀ (c : Octet) (stale : List Octet), 64 ≤ c.val →
        dns_query.ctor P (hdr ++ encode_questions qs ++ c :: stale) msg_len
          = .error .has_compression) := by
  refine ⟨?_, ?_, ?_, ?_⟩
  · intro ls hls hroom
    have h := ctor_cut_off P hdr (hdr ++ encode_questions qs ++ encode_labels ls) qs
      { labels := ls, t0 := 0, t1 := 0, c0 := 0, c1 := 0 } m 5 msg_len hlen hqr hqd hwf hls
      (by rw [encode_question_zero]; simp only [List.append_assoc]) (by omega)
    rw [decoded_zero] at h
    exact h
  · intro ls len part hls hl1 hl2 hpart hroom
    have hfill : (part ++ List.replicate (len - part.length) (0 : Octet)).length = len := by
      rw [List.length_append, List.length_replicate]
      omega
    have hq : well_formed_labels (ls ++ [part ++ List.replicate (len - part.length) 0]) := by
      intro x hx
      rw [List.mem_append, List.mem_singleton] at hx
      rcases hx with hx | hx
      · exact hls x hx
      · rw [hx, hfill]
        exact ⟨hl1, hl2⟩
    have h := ctor_cut_off P hdr
      (hdr ++ encode_questions qs ++ encode_labels ls ++ Fin.ofNat len :: part) qs
      { labels := ls ++ [part ++ List.replicate (len - part.length) 0],
        t0 := 0, t1 := 0, c0 := 0, c1 := 0 }
      m (len - part.length + 5) msg_len hlen hqr hqd hwf hq
      (by
        rw [encode_question_zero, encode_labels_append, encode_labels, encode_labels,
          length_octet_zero_filled part len hpart, List.replicate_add]
        simp only [List.append_assoc, List.cons_append, List.append_nil])
      (by omega)
    rw [decoded_zero] at h
    simpa using h
  · intro ls tq hls htq hroom
    exact ctor_cut_off P hdr (hdr ++ encode_questions qs ++ encode_labels ls ++ 0 :: tq) qs
      (zero_filled_question ls tq) m (4 - tq.length) msg_len hlen hqr hqd hwf hls
      (by
        have ht := zero_filled_tail tq htq
        simp only [encode_question, zero_filled_question, List.append_assoc,
          List.cons_append, ht])
      (by omega)
  · intro c stale hc
    obtain ⟨k, hk⟩ : ∃ k, qs.length + 1 + m = qs.length + (k + 1) := ⟨m, by omega⟩
    have hr := read_questions_compression P qs (hdr ++ encode_questions qs ++ c :: stale)
      hdr stale [] c [] k hwf (by intro l hl; cases hl) hc
      (by simp [encode_labels])
    rw [hlen] at hr
    rw [List.append_assoc]
    apply ctor_message_error P hdr _ msg_len hlen hqr
    rw [hqd, hk, ← List.append_assoc]
    exact hr

/-- Witness for C5 as amended: header A alone; header A and the question of
scenario A cut after `ww`, after `www`, and after the first qtype octet; and
header A followed by a stale 0xC0 in the buffer. -/
theorem C5_truncated_walks_on_witness :
    header_A.length = 12 ∧ octet_at header_A 2 < 128
    ∧ 256 * octet_at header_A 4 + octet_at header_A 5 = ([] : List wire_question).length + 1 + 0
    ∧ well_formed_questions []
    ∧ (∃ query,
        dns_query.ctor x86_64
          (receive_buffer (header_A ++ encode_questions [] ++ encode_labels [])) 12 = .ok query
        ∧ query.get_question_list
            = List.map (decoded x86_64) []
              ++ { qname := [] ++ [[]], qtype := 0, qclass := 0 }
                :: List.replicate 0 root_entry)
    ∧ (∃ query,
        dns_query.ctor x86_64
          (receive_buffer
            (header_A ++ encode_questions [] ++ encode_labels [] ++ Fin.ofNat 3 :: ascii "ww"))
          15 = .ok query
        ∧ query.get_question_list
            = List.map (decoded x86_64) []
              ++ { qname := [] ++ [ascii "ww" ++ List.replicate (3 - (ascii "ww").length) 0, []],
                   qtype := 0, qclass := 0 }
                :: List.replicate 0 root_entry)
    ∧ (∃ query,
        dns_query.ctor x86_64
          (receive_buffer
            (header_A ++ encode_questions [] ++ encode_labels [ascii "www"] ++ 0 :: [0]))
          18 = .ok query
        ∧ query.get_question_list
            = List.map (decoded x86_64) []
              ++ decoded x86_64 (zero_filled_question [ascii "www"] [0])
                :: List.replicate 0 root_entry)
    ∧ dns_query.ctor x86_64 (header_A ++ encode_questions [] ++ 0xC0 :: List.replicate 499 0) 12
        = .error .has_compression :=
  ⟨by decide, by decide, by decide, by decide,
    (C5_truncated_walks_on x86_64 header_A [] 0 12
      (by decide) (by decide) (by decide) (by decide)).1 [] (by decide) (by decide),
    (C5_truncated_walks_on x86_64 header_A [] 0 15
      (by decide) (by decide) (by decide) (by decide)).2.1 [] 3 (ascii "ww")
      (by decide) (by decide) (by decide) (by decide) (by decide),
    (C5_truncated_walks_on x86_64 header_A [] 0 18
      (by decide) (by decide) (by decide) (by decide)).2.2.1 [ascii "www"] [0]
      (by decide) (by decide) (by decide),
    (C5_truncated_walks_on x86_64 header_A [] 0 12
      (by decide) (by decide) (by decide) (by decide)).2.2.2 0xC0 (List.replicate 499 0)
      (by decide)⟩

/-- C6 fails: an empty datagram (`msg_len = 0`) received into the shell's
zeroed 512-octet buffer.  Constructing `dns_query` does not fail: the header
is decoded from the twelve zero octets of the buffer, with every field 0, and
the question list is empty. -/
theorem C6_short_datagram_accepted :
    ∃ query, dns_query.ctor x86_64 (receive_buffer []) 0 = .ok query
      ∧ query._header = { id := 0, flag := 0, qd_count := 0,
                          an_count := 0, ns_count := 0, ar_count := 0 }
      ∧ query.get_question_list = [] := by
  have e : receive_buffer [] = List.replicate 12 0 ++ List.replicate 500 0 := by
    rw [receive_buffer_short [] (by decide), ← List.replicate_add]
    rfl
  obtain ⟨query, hq, hl⟩ := ctor_zero_padded x86_64 (List.replicate 12 0) 0 500 0
    (by decide) (by decide) (by decide) (by decide)
  rw [← e] at hq
  have hh := ctor_header _ _ _ _ hq
  rw [header_fields _ _ (receive_buffer_length [])] at hh
  simp only [octet_at_receive_buffer [] (by decide)] at hh
  injection hh with hh
  exact ⟨query, hq, hh.symm, hl⟩

/-- C6 as amended: for a datagram shorter than 12 octets received into the
shell's zeroed 512-octet buffer, header decoding does not fail and takes no
account of the received length: it produces the header of the first twelve
octets of the buffer, which are the received octets followed by zeros, each
field being the big-endian value of its octet pair (`octet_at d i` is 0 where
the datagram has no octet).  When that header has QR clear and announces at
most 100 questions, constructing `dns_query` succeeds for every `msg_len`,
with that many questions read from the zero octets of the buffer; the empty
datagram gives the all-zero header and an empty question list. -/
theorem C6_short_datagram_header (P : Platform) (d : List Octet) (msg_len : Nat)
    (hd : d.length < 12) :
    (∃ header, message_header.ctor P (receive_buffer d) = .ok header
      ∧ header.id = 256 * octet_at d 0 + octet_at d 1
      ∧ header.flag = 256 * octet_at d 2 + octet_at d 3
      ∧ header.qd_count = 256 * octet_at d 4 + octet_at d 5
      ∧ header.an_count = 256 * octet_at d 6 + octet_at d 7
      ∧ header.ns_count = 256 * octet_at d 8 + octet_at d 9
      ∧ header.ar_count = 256 * octet_at d 10 + octet_at d 11)
    ∧ (∀ i, d.length ≤ i → octet_at d i = 0)
    ∧ (octet_at d 2 < 128 → 256 * octet_at d 4 + octet_at d 5 ≤ 100 →
        ∃ query, dns_query.ctor P (receive_buffer d) msg_len = .ok query
          ∧ message_header.ctor P (receive_buffer d) = .ok query._header
          ∧ query.get_question_list
              = List.replicate (256 * octet_at d 4 + octet_at d 5) root_entry) := by
  have h512 : d.length ≤ 512 := by omega
  have ho := octet_at_receive_buffer d h512
  refine ⟨?_, ?_, ?_⟩
  · exact ⟨_, header_fields P _ (receive_buffer_length d),
      by rw [ho 0, ho 1], by rw [ho 2, ho 3], by rw [ho 4, ho 5],
      by rw [ho 6, ho 7], by rw [ho 8, ho 9], by rw [ho 10, ho 11]⟩
  · intro i hi
    unfold octet_at
    rw [List.getD_eq_default _ _ hi]
    rfl
  · intro hqr hn
    have e : receive_buffer d
        = (d ++ List.replicate (12 - d.length) 0) ++ List.replicate 500 0 := by
      rw [receive_buffer_short d h512, replicate_split (12 - d.length) (512 - d.length)
        (by omega), List.append_assoc]
      congr 3
      omega
    have hl : (d ++ List.replicate (12 - d.length) (0 : Octet)).length = 12 := by
      rw [List.length_append, List.length_replicate]
      omega
    have hoh : ∀ i, i < 12 →
        octet_at (d ++ List.replicate (12 - d.length) 0) i = octet_at d i := by
      intro i hi
      rw [← ho i, e]
      exact (octet_at_append (d ++ List.replicate (12 - d.length) 0) (List.replicate 500 0) i
        (by rw [hl]; exact hi)).symm
    obtain ⟨query, h1, h2⟩ := ctor_zero_padded P (d ++ List.replicate (12 - d.length) 0)
      (256 * octet_at d 4 + octet_at d 5) 500 msg_len hl
      (by rw [hoh 2 (by omega)]; exact hqr)
      (by rw [hoh 4 (by omega), hoh 5 (by omega)]) (by omega)
    rw [← e] at h1
    exact ⟨query, h1, ctor_header _ _ _ _ h1, h2⟩

/-- Witness for C6 as amended: a datagram of three octets, 12 34 01. -/
theorem C6_short_datagram_header_witness :
    ([0x12, 0x34, 0x01] : List Octet).length < 12
    ∧ (∃ header, message_header.ctor x86_64 (receive_buffer [0x12, 0x34, 0x01]) = .ok header
        ∧ header.id = 256 * octet_at [0x12, 0x34, 0x01] 0 + octet_at [0x12, 0x34, 0x01] 1
        ∧ header.flag = 256 * octet_at [0x12, 0x34, 0x01] 2 + octet_at [0x12, 0x34, 0x01] 3
        ∧ header.qd_count = 256 * octet_at [0x12, 0x34, 0x01] 4 + octet_at [0x12, 0x34, 0x01] 5
        ∧ header.an_count = 256 * octet_at [0x12, 0x34, 0x01] 6 + octet_at [0x12, 0x34, 0x01] 7
        ∧ header.ns_count = 256 * octet_at [0x12, 0x34, 0x01] 8 + octet_at [0x12, 0x34, 0x01] 9
        ∧ header.ar_count
            = 256 * octet_at [0x12, 0x34, 0x01] 10 + octet_at [0x12, 0x34, 0x01] 11)
    ∧ (∃ query, dns_query.ctor x86_64 (receive_buffer [0x12, 0x34, 0x01]) 3 = .ok query
        ∧ message_header.ctor x86_64 (receive_buffer [0x12, 0x34, 0x01]) = .ok query._header
        ∧ query.get_question_list
            = List.replicate
                (256 * octet_at [0x12, 0x34, 0x01] 4 + octet_at [0x12, 0x34, 0x01] 5)
                root_entry) :=
  ⟨by decide,
    (C6_short_datagram_header x86_64 [0x12, 0x34, 0x01] 3 (by decide)).1,
    (C6_short_datagram_header x86_64 [0x12, 0x34, 0x01] 3 (by decide)).2.2
      (by decide) (by decide)⟩

/-- C7: for every buffer of at least 12 octets, on either byte order, each of
the six fields of the decoded header is the big-endian value of its pair of
wire octets, read as unsigned. -/
theorem C7_header_big_endian (P : Platform) (b : List Octet) (h : 12 ≤ b.length) :
    ∃ header, message_header.ctor P b = .ok header
      ∧ header.id = 256 * octet_at b 0 + octet_at b 1
      ∧ header.flag = 256 * octet_at b 2 + octet_at b 3
      ∧ header.qd_count = 256 * octet_at b 4 + octet_at b 5
      ∧ header.an_count = 256 * octet_at b 6 + octet_at b 7
      ∧ header.ns_count = 256 * octet_at b 8 + octet_at b 9
      ∧ header.ar_count = 256 * octet_at b 10 + octet_at b 11 :=
  ⟨_, header_fields P b h, rfl, rfl, rfl, rfl, rfl, rfl⟩

/-- Witness for C7: the header of scenario A on a big-endian host. -/
theorem C7_header_big_endian_witness :
    12 ≤ scenario_A.length
    ∧ ∃ header, message_header.ctor s390x scenario_A = .ok header
      ∧ header.id = 256 * octet_at scenario_A 0 + octet_at scenario_A 1
      ∧ header.flag = 256 * octet_at scenario_A 2 + octet_at scenario_A 3
      ∧ header.qd_count = 256 * octet_at scenario_A 4 + octet_at scenario_A 5
      ∧ header.an_count = 256 * octet_at scenario_A 6 + octet_at scenario_A 7
      ∧ header.ns_count = 256 * octet_at scenario_A 8 + octet_at scenario_A 9
      ∧ header.ar_count = 256 * octet_at scenario_A 10 + octet_at scenario_A 11 :=
  ⟨by decide, C7_header_big_endian s390x scenario_A (by decide)⟩

/-- C8: for every `dns_name`, its conversion to `std::string` is the
concatenation, in sequence order, of each non-empty label followed by a dot,
empty labels adding nothing; the labels `example`, `com` and the empty label
give `example.com.`, and a name of empty labels only gives the empty
string. -/
theorem C8_canonical_string (name : dns_name) (n : Nat) :
    dns_name.to_string name = canonical_string name
    ∧ dns_name.to_string [ascii "example", ascii "com", []] = ascii "example.com."
    ∧ dns_name.to_string (List.replicate n []) = [] :=
  ⟨to_string_eq_canonical name, by decide, to_string_replicate_nil n⟩

/-- What the question loop does get right on a query (QR clear) whose
qd_count is the number n of well-formed questions laid end to end after the
header: the question list has exactly n entries, in wire order, the i-th with
the labels of the i-th question and the root label after them, and with qtype
and qclass as dns.cpp:148-149 computes them from the four octets after its
name.  Those are the big-endian wire values on a little-endian host only when
`char` is unsigned or the first octet of each field is below 0x80.  Each
question is read starting right after the previous one (the first at offset
12) and leaves the cursor right after its own qclass; inside a name each label
moves the cursor by its length plus one; with n = 0 the list is empty. -/
theorem questions_decoded_in_order (P : Platform) (hdr : List Octet) (qs : List wire_question)
    (tail : List Octet) (msg_len : Nat)
    (hlen : hdr.length = 12) (hqr : octet_at hdr 2 < 128)
    (hqd : 256 * octet_at hdr 4 + octet_at hdr 5 = qs.length)
    (hwf : well_formed_questions qs) :
    (∃ query,
      dns_query.ctor P (hdr ++ encode_questions qs ++ tail) msg_len = .ok query
      ∧ query.get_question_list = qs.map (decoded P)
      ∧ query.get_question_list.length = qs.length
      ∧ (qs = [] → query.get_question_list = []))
    ∧ (∀ q ∈ qs, (decoded P q).qname = q.labels ++ [[]]
        ∧ (P.little_endian = true →
            (P.char_signed = false ∨ (q.t0.val < 128 ∧ q.c0.val < 128)) →
            (decoded P q).qtype = 256 * q.t0.val + q.t1.val
            ∧ (decoded P q).qclass = 256 * q.c0.val + q.c1.val))
    ∧ (∀ (qs1 qs2 : List wire_question) (q : wire_question), qs = qs1 ++ q :: qs2 →
        read_question P (hdr ++ encode_questions qs ++ tail)
            (12 + (encode_questions qs1).length)
          = .ok (decoded P q,
              12 + (encode_questions qs1).length + (encode_question q).length)
        ∧ ∀ (ls1 ls2 : List (List Octet)) (l : List Octet) (acc : dns_name) (fuel : Nat),
            q.labels = ls1 ++ l :: ls2 →
            read_labels P (hdr ++ encode_questions qs ++ tail) (fuel + 1)
                (12 + (encode_questions qs1).length + (encode_labels ls1).length) acc
              = read_labels P (hdr ++ encode_questions qs ++ tail) fuel
                  (12 + (encode_questions qs1).length + (encode_labels ls1).length
                    + (l.length + 1)) (acc ++ [l])) := by
  refine ⟨?_, ?_, ?_⟩
  · have hr := read_questions_of_message P hdr qs tail hlen hwf
    obtain ⟨query, hq1, hq2⟩ := ctor_message_ok P hdr (encode_questions qs ++ tail) msg_len
      hlen hqr _ _ (by rw [hqd, ← List.append_assoc]; exact hr)
    rw [← List.append_assoc] at hq1
    refine ⟨query, hq1, hq2, by rw [hq2, List.length_map], ?_⟩
    intro he
    rw [hq2, he]
    rfl
  · intro q _
    refine ⟨rfl, ?_⟩
    intro hle hs
    constructor
    · exact question_u16_big_endian P q.t0 q.t1 hle (hs.imp id (fun h => h.1))
    · exact question_u16_big_endian P q.c0 q.c1 hle (hs.imp id (fun h => h.2))
  · intro qs1 qs2 q he
    have hq : well_formed_labels q.labels := hwf q (by rw [he]; simp)
    have hpl : (hdr ++ encode_questions qs1).length = 12 + (encode_questions qs1).length := by
      rw [List.length_append, hlen]
    constructor
    · have hb : hdr ++ encode_questions qs ++ tail
          = (hdr ++ encode_questions qs1)
            ++ (encode_question q ++ (encode_questions qs2 ++ tail)) := by
        rw [he, encode_questions_append]
        simp [encode_questions]
      have h := read_question_encoded P q _ (hdr ++ encode_questions qs1) _ hq hb
      rw [hpl] at h
      exact h
    · intro ls1 ls2 l acc fuel hls
      have hl := hq l (by rw [hls]; simp)
      have hb : hdr ++ encode_questions qs ++ tail
          = (hdr ++ encode_questions qs1 ++ encode_labels ls1)
            ++ (length_octet l :: (l ++ (encode_labels ls2
                ++ 0 :: [q.t0, q.t1, q.c0, q.c1] ++ (encode_questions qs2 ++ tail)))) := by
        rw [he, encode_questions_append]
        simp [encode_questions, encode_question, hls, encode_labels_append, encode_labels]
      have h := read_labels_step P _ (hdr ++ encode_questions qs1 ++ encode_labels ls1) _ l
        acc fuel hl.1 hl.2 hb
      have hpl2 : (hdr ++ encode_questions qs1 ++ encode_labels ls1).length
          = 12 + (encode_questions qs1).length + (encode_labels ls1).length := by
        rw [List.length_append, hpl]
      rw [hpl2] at h
      exact h

/-- The two questions `www.example.com` A IN and `example.org` AAAA IN after
one header: the second question is read from offset 33 to offset 50. -/
theorem questions_decoded_in_order_sample :
    header_two.length = 12 ∧ octet_at header_two 2 < 128
    ∧ 256 * octet_at header_two 4 + octet_at header_two 5 = [question_A, question_org].length
    ∧ well_formed_questions [question_A, question_org]
    ∧ (∃ query,
        dns_query.ctor x86_64
          (header_two ++ encode_questions [question_A, question_org] ++ []) 50 = .ok query
        ∧ query.get_question_list = [question_A, question_org].map (decoded x86_64)
        ∧ query.get_question_list.length = [question_A, question_org].length
        ∧ ([question_A, question_org] = [] → query.get_question_list = []))
    ∧ read_question x86_64
          (header_two ++ encode_questions [question_A, question_org] ++ [])
          (12 + (encode_questions [question_A]).length)
        = .ok (decoded x86_64 question_org,
            12 + (encode_questions [question_A]).length
              + (encode_question question_org).length) :=
  ⟨by decide, by decide, by decide, by decide,
    (questions_decoded_in_order x86_64 header_two [question_A, question_org] [] 50
      (by decide) (by decide) (by decide) (by decide)).1,
    ((questions_decoded_in_order x86_64 header_two [question_A, question_org] [] 50
      (by decide) (by decide) (by decide) (by decide)).2.2
        [question_A] [] question_org rfl).1⟩

/-- C9, evaluated on x86-64 (little-endian, signed `char`): header
`header_two` announces two questions and two well-formed questions follow,
`www.example.com` A IN and the same name with qtype 1 and qclass octets 80 01.
The list has two entries in wire order with the right names, the second read
from offset 33 with its qclass octets at offsets 52 and 53, but the second
entry is not the second question on the wire: its qclass is 0x80FF where the
wire says 0x8001. -/
theorem C9_entry_differs_from_wire :
    well_formed_questions [question_A, question_QU]
    ∧ 256 * octet_at scenario_two_QU 4 + octet_at scenario_two_QU 5 = 2
    ∧ decode_questions x86_64 scenario_two_QU 54
        = .ok [{ qname := [ascii "www", ascii "example", ascii "com", []],
                 qtype := 1, qclass := 1 },
               { qname := [ascii "www", ascii "example", ascii "com", []],
                 qtype := 1, qclass := 0x80FF }]
    ∧ read_question x86_64 scenario_two_QU 33
        = .ok ({ qname := [ascii "www", ascii "example", ascii "com", []],
                 qtype := 1, qclass := 0x80FF }, 54)
    ∧ 256 * octet_at scenario_two_QU 50 + octet_at scenario_two_QU 51 = 1
    ∧ 256 * octet_at scenario_two_QU 52 + octet_at scenario_two_QU 53 = 0x8001
    ∧ 256 * question_QU.c0.val + question_QU.c1.val = 0x8001 :=
  ⟨by decide, by decide, rfl, rfl, by decide, by decide, by decide⟩

/-- C10: two buffers whose first six octets (id, flags, qd_count) are the
same have the same outcome, the same error or the same question list, when
they agree from offset 12 on, whatever their an_count, ns_count and ar_count
octets are; and when constructing `dns_query` succeeds on the first with the
cursor ending at `e`, right after the last question, it yields the same
question list on every buffer that agrees with it between offset 12 and `e`,
whatever that buffer holds in its three section counts and from `e` on. -/
theorem C10_section_counts_ignored (P : Platform) (b1 b2 : List Octet) (msg_len : Nat)
    (h1 : 12 ≤ b1.length) (h2 : 12 ≤ b2.length)
    (hhdr : ∀ i, i < 6 → octet_at b1 i = octet_at b2 i) :
    (b1.length = b2.length → (∀ i, 12 ≤ i → b1[i]? = b2[i]?) →
        decode_questions P b1 msg_len = decode_questions P b2 msg_len)
    ∧ (∀ (query : dns_query) (e : Nat),
        dns_query.construct P b1 msg_len = .ok (query, e) →
        (∀ i, 12 ≤ i → i < e → b1[i]? = b2[i]?) →
        decode_questions P b2 msg_len = .ok query.get_question_list) := by
  have e2 := hhdr 2 (by omega)
  have e4 := hhdr 4 (by omega)
  have e5 := hhdr 5 (by omega)
  constructor
  · intro hlen hag
    by_cases hqr : 128 ≤ octet_at b1 2
    · rw [decode_questions_response P b1 msg_len h1 hqr,
        decode_questions_response P b2 msg_len h2 (by rw [← e2]; exact hqr)]
    · rw [decode_questions_query P b1 msg_len h1 (by omega),
        decode_questions_query P b2 msg_len h2 (by rw [← e2]; omega),
        ← e4, ← e5, read_questions_congr P b1 b2 12 hlen hag _ 12 [] (Nat.le_refl 12)]
  · intro query e hc hag
    by_cases hqr : 128 ≤ octet_at b1 2
    · rw [construct_response P b1 msg_len h1 hqr] at hc
      cases hc
    · rw [construct_query P b1 msg_len h1 (by omega)] at hc
      cases hr : read_questions P b1 (256 * octet_at b1 4 + octet_at b1 5) 12 [] with
      | error err => rw [hr] at hc; cases hc
      | ok r =>
        obtain ⟨l, p⟩ := r
        rw [hr] at hc
        injection hc with hc
        injection hc with hq hp
        subst hp
        have hw := read_questions_window P b1 b2 _ 12 [] l p hr hag
        rw [decode_questions_query P b2 msg_len h2 (by rw [← e2]; omega), ← e4, ← e5, hw,
          ← hq]
        rfl

/-- Witness for C10: scenario A, and scenario A with section counts 1, 2, 3
and three more octets after the question, have the same question list. -/
theorem C10_section_counts_ignored_witness :
    12 ≤ scenario_A.length
    ∧ 12 ≤ (header_A_counts ++ encode_question question_A ++ [0xC0, 0x0C, 0xFF]).length
    ∧ (∀ i, i < 6 → octet_at scenario_A i
        = octet_at (header_A_counts ++ encode_question question_A ++ [0xC0, 0x0C, 0xFF]) i)
    ∧ decode_questions x86_64
          (header_A_counts ++ encode_question question_A ++ [0xC0, 0x0C, 0xFF]) 36
        = .ok [{ qname := [ascii "www", ascii "example", ascii "com", []],
                 qtype := 1, qclass := 1 }] :=
  ⟨by decide, by decide, by decide,
    (C10_section_counts_ignored x86_64 scenario_A
      (header_A_counts ++ encode_question question_A ++ [0xC0, 0x0C, 0xFF]) 36
      (by decide) (by decide) (by decide)).2
      { _message_in := scenario_A
        _message_length := 36
        _header := { id := 0x1234, flag := 0x0100, qd_count := 1,
                     an_count := 0, ns_count := 0, ar_count := 0 }
        _question_list := [{ qname := [ascii "www", ascii "example", ascii "com", []],
                             qtype := 1, qclass := 1 }] }
      33 rfl
      (by
        intro i hi1 hi2
        interval_cases i <;> rfl)⟩

/-! ## Byte reversal -/

theorem to_octets_length (n : Nat) : ∀ v, (to_octets n v).length = n := by
  induction n with
  | zero => intro v; rfl
  | succ n ih => intro v; simp [to_octets, ih]

theorem to_octets_lt (n : Nat) : ∀ v d, d ∈ to_octets n v → d < 256 := by
  induction n with
  | zero => intro v d h; simp [to_octets] at h
  | succ n ih =>
    intro v d h
    simp only [to_octets, List.mem_cons] at h
    rcases h with h | h
    · omega
    · exact ih _ _ h

theorem of_octets_append (a b : List Nat) :
    of_octets (a ++ b) = of_octets a + 256 ^ a.length * of_octets b := by
  induction a with
  | nil => simp [of_octets]
  | cons d a ih =>
    rw [List.cons_append, of_octets, of_octets, ih, List.length_cons, Nat.pow_succ]
    ring

theorem of_octets_lt (l : List Nat) (h : ∀ d ∈ l, d < 256) : of_octets l < 256 ^ l.length := by
  induction l with
  | nil => simp [of_octets]
  | cons d l ih =>
    have hd := h d (List.mem_cons_self d l)
    have hl := ih (fun x hx => h x (List.mem_cons_of_mem d hx))
    simp only [of_octets, List.length_cons, Nat.pow_succ]
    omega

theorem of_octets_to_octets (n : Nat) : ∀ v, of_octets (to_octets n v) = v % 256 ^ n := by
  induction n with
  | zero => intro v; simp [to_octets, of_octets, Nat.mod_one]
  | succ n ih =>
    intro v
    simp only [to_octets, of_octets, ih]
    rw [Nat.pow_succ, Nat.mul_comm (256 ^ n) 256, Nat.mod_mul]

theorem to_octets_of_octets (l : List Nat) (h : ∀ d ∈ l, d < 256) :
    to_octets l.length (of_octets l) = l := by
  induction l with
  | nil => rfl
  | cons d l ih =>
    have hd := h d (List.mem_cons_self d l)
    have hl := ih (fun x hx => h x (List.mem_cons_of_mem d hx))
    simp only [List.length_cons, to_octets, of_octets]
    have e1 : (d + 256 * of_octets l) % 256 = d := by omega
    have e2 : (d + 256 * of_octets l) / 256 = of_octets l := by omega
    rw [e1, e2, hl]

/-- The function `std::byteswap` gives the value with its octets in reverse
order. -/
theorem byteswap_eq_reverse (n : Nat) : ∀ v, utility.byteswap n v = reverse_octets n v := by
  induction n with
  | zero => intro v; rfl
  | succ n ih =>
    intro v
    simp only [utility.byteswap, reverse_octets, to_octets, List.reverse_cons, of_octets_append,
      List.length_reverse, to_octets_length, of_octets]
    rw [ih]
    simp only [reverse_octets]
    ring

theorem reverse_octets_lt (n v : Nat) : reverse_octets n v < 256 ^ n := by
  have h := of_octets_lt (to_octets n v).reverse
    (fun d hd => to_octets_lt n v d (List.mem_reverse.mp hd))
  rw [List.length_reverse, to_octets_length] at h
  exact h

theorem to_octets_reverse_octets (n v : Nat) :
    to_octets n (reverse_octets n v) = (to_octets n v).reverse := by
  have h := to_octets_of_octets (to_octets n v).reverse
    (fun d hd => to_octets_lt n v d (List.mem_reverse.mp hd))
  rw [List.length_reverse, to_octets_length] at h
  exact h

/-- Reversing the octets twice gives the value back, for a value that fits
the width. -/
theorem byteswap_byteswap (n v : Nat) (hv : v < 256 ^ n) :
    utility.byteswap n (utility.byteswap n v) = v := by
  rw [byteswap_eq_reverse, byteswap_eq_reverse]
  unfold reverse_octets
  rw [show of_octets (to_octets n v).reverse = reverse_octets n v from rfl,
    to_octets_reverse_octets, List.reverse_reverse, of_octets_to_octets, Nat.mod_eq_of_lt hv]

theorem ntoh_ntoh (P : Platform) (n v : Nat) (hv : v < 256 ^ n) :
    utility.ntoh P n (utility.ntoh P n v) = v := by
  unfold utility.ntoh
  cases P.little_endian
  · rfl
  · exact byteswap_byteswap n v hv

theorem hton_eq_ntoh (P : Platform) (n v : Nat) : utility.hton P n v = utility.ntoh P n v := rfl

/-- C13: `utility::ntoh` and `utility::hton` are the same function; on a
little-endian platform each returns its argument with the octets in reverse
order, for every width (16, 32 and 64 bits are 2, 4 and 8 octets; for a 16-bit
value that is `(v mod 256) * 256 + v div 256`); on a big-endian platform each
is the identity. -/
theorem C13_byte_order (P : Platform) (s : Bool) (bytes v : Nat) :
    utility.ntoh P bytes v = utility.hton P bytes v
    ∧ utility.ntoh ⟨true, s⟩ bytes v = reverse_octets bytes v
    ∧ utility.hton ⟨true, s⟩ bytes v = reverse_octets bytes v
    ∧ to_octets bytes (reverse_octets bytes v) = (to_octets bytes v).reverse
    ∧ reverse_octets bytes v < 256 ^ bytes
    ∧ utility.ntoh ⟨true, s⟩ 2 (v % 2 ^ 16) = (v % 2 ^ 16 % 256) * 256 + v % 2 ^ 16 / 256
    ∧ utility.ntoh ⟨true, s⟩ 4 0x12345678 = 0x78563412
    ∧ utility.ntoh ⟨true, s⟩ 8 0x0102030405060708 = 0x0807060504030201
    ∧ utility.ntoh ⟨false, s⟩ bytes v = v
    ∧ utility.hton ⟨false, s⟩ bytes v = v := by
  refine ⟨rfl, ?_, ?_, to_octets_reverse_octets bytes v, reverse_octets_lt bytes v,
    ?_, rfl, rfl, rfl, rfl⟩
  · exact byteswap_eq_reverse bytes v
  · exact byteswap_eq_reverse bytes v
  · show utility.byteswap 2 (v % 2 ^ 16) = _
    rw [byteswap_two]
    omega

/-- C19: on either byte order and for every width, `utility::hton` and
`utility::ntoh` undo each other and each undoes itself, on every value that
fits the width. -/
theorem C19_byte_order_involution (P : Platform) (bytes v : Nat) (hv : v < 256 ^ bytes) :
    utility.hton P bytes (utility.ntoh P bytes v) = v
    ∧ utility.ntoh P bytes (utility.hton P bytes v) = v
    ∧ utility.ntoh P bytes (utility.ntoh P bytes v) = v
    ∧ utility.hton P bytes (utility.hton P bytes v) = v := by
  simp only [hton_eq_ntoh]
  exact ⟨ntoh_ntoh P bytes v hv, ntoh_ntoh P bytes v hv, ntoh_ntoh P bytes v hv,
    ntoh_ntoh P bytes v hv⟩

/-- Witness for C19: the 32-bit value 0x12345678 on x86-64, and the 64-bit
value 0x0102030405060708 on a big-endian host. -/
theorem C19_byte_order_involution_witness :
    (0x12345678 < 256 ^ 4
      ∧ utility.hton x86_64 4 (utility.ntoh x86_64 4 0x12345678) = 0x12345678
      ∧ utility.ntoh x86_64 4 (utility.hton x86_64 4 0x12345678) = 0x12345678
      ∧ utility.ntoh x86_64 4 (utility.ntoh x86_64 4 0x12345678) = 0x12345678
      ∧ utility.hton x86_64 4 (utility.hton x86_64 4 0x12345678) = 0x12345678)
    ∧ (0x0102030405060708 < 256 ^ 8
      ∧ utility.hton s390x 8 (utility.ntoh s390x 8 0x0102030405060708) = 0x0102030405060708) :=
  ⟨⟨by decide, C19_byte_order_involution x86_64 4 0x12345678 (by decide)⟩,
    by decide, (C19_byte_order_involution s390x 8 0x0102030405060708 (by decide)).1⟩

/-! ## The received length -/

/-- The constructor with another `msg_len` differs in the stored length
only. -/
theorem ctor_msg_len (P : Platform) (buf : List Octet) (l1 l2 : Nat) :
    dns_query.ctor P buf l2 =
      match dns_query.ctor P buf l1 with
      | .error e => .error e
      | .ok q => .ok { q with _message_length := l2 } := by
  unfold dns_query.ctor dns_query.construct
  cases message_header.ctor P buf with
  | error e => rfl
  | ok header =>
    dsimp only
    by_cases hq : (header.flag &&& 0x8000) >>> 15 ≠ 0
    · rw [if_pos hq, if_pos hq]
    · rw [if_neg hq, if_neg hq]
      cases read_questions P buf header.qd_count 12 [] with
      | error e => rfl
      | ok r => rfl

/-- The members of a constructed query that hold the arguments. -/
theorem ctor_members (P : Platform) (buf : List Octet) (msg_len : Nat) (query : dns_query)
    (h : dns_query.ctor P buf msg_len = .ok query) :
    query._message_in = buf ∧ query._message_length = msg_len := by
  unfold dns_query.ctor dns_query.construct at h
  cases hh : message_header.ctor P buf with
  | error e => rw [hh] at h; cases h
  | ok header =>
    rw [hh] at h
    dsimp only at h
    split at h
    · cases h
    · rename_i q p hc
      split at hc
      · cases hc
      · split at hc
        · cases hc
        · injection hc with hc
          injection hc with hc1 hc2
          injection h with h
          rw [← h, ← hc1]
          exact ⟨rfl, rfl⟩

/-- C18: for every buffer and any two values of `msg_len`, constructing
`dns_query` fails with the same error on both or succeeds on both with the
same question list, the same header and the same buffer; the two objects
differ in the stored length only. -/
theorem C18_length_not_consulted (P : Platform) (buf : List Octet) (l1 l2 : Nat) :
    decode_questions P buf l1 = decode_questions P buf l2
    ∧ (∀ e, dns_query.ctor P buf l1 = .error e ↔ dns_query.ctor P buf l2 = .error e)
    ∧ (∀ q1, dns_query.ctor P buf l1 = .ok q1 ↔
        dns_query.ctor P buf l2 = .ok { q1 with _message_length := l2 }
          ∧ q1._message_length = l1) := by
  have h12 := ctor_msg_len P buf l1 l2
  have h21 := ctor_msg_len P buf l2 l1
  refine ⟨?_, ?_, ?_⟩
  · unfold decode_questions
    rw [h12]
    cases dns_query.ctor P buf l1 with
    | error e => rfl
    | ok q => rfl
  · intro e
    constructor
    · intro h; rw [h12, h]
    · intro h; rw [h21, h]
  · intro q1
    constructor
    · intro h
      refine ⟨by rw [h12, h], (ctor_members P buf l1 q1 h).2⟩
    · intro ⟨h, hl⟩
      rw [h21, h]
      dsimp only
      rw [← hl]

/-! ## The response and the cache -/

theorem find_keeps_cache (cache : cache_map) (key : List Octet) :
    (cache_map.find cache key).2 = cache := rfl

theorem response_keeps_cache (question_list : List message_question) :
    ∀ cache : cache_map, (dns_response.ctor question_list cache).2 = cache := by
  induction question_list with
  | nil => intro cache; rfl
  | cons v l ih =>
    intro cache
    have h := ih cache
    simp only [dns_response.ctor, List.foldl_cons, find_keeps_cache] at h ⊢
    exact h

/-- C14: for every question list and every cache content, constructing
`dns_response` leaves the cache as it was, entry for entry and in the same
order: each step is a `find`, which returns a position and changes
nothing. -/
theorem C14_cache_unchanged (question_list : List message_question) (cache : cache_map)
    (key : List Octet) :
    (dns_response.ctor question_list cache).2 = cache
    ∧ (cache_map.find cache key).2 = cache
    ∧ (dns_response.ctor [] cache).2 = cache :=
  ⟨response_keeps_cache question_list cache, rfl, rfl⟩

/-! ## The server shell -/

/-- The shell when the constructor of `dns_query` throws: the exception leaves
the constructor of `dns_server`; one call of `recv` has been made, no response
is constructed. -/
theorem shell_throws {Tpeer : Type} (P : Platform) (recv : recv_function Tpeer)
    (send : send_function Tpeer) (e : decode_fault)
    (h : dns_query.ctor P (recv (List.replicate 512 0) 512).2.2
      (recv (List.replicate 512 0) 512).2.1 = .error e) :
    dns_server.ctor P recv send =
      { calls := [shell_call.recv (List.replicate 512 0) 512]
        query := none
        responded := false
        result := .error e } := by
  unfold dns_server.ctor
  simp only [DNS_UDP_MSG_LEN_RESTRICTION]
  rw [h]

/-- The shell when the constructor of `dns_query` returns: one call of `recv`
has been made and none of `send`; the response is constructed and the cache
stays empty. -/
theorem shell_returns {Tpeer : Type} (P : Platform) (recv : recv_function Tpeer)
    (send : send_function Tpeer) (query : dns_query)
    (h : dns_query.ctor P (recv (List.replicate 512 0) 512).2.2
      (recv (List.replicate 512 0) 512).2.1 = .ok query) :
    dns_server.ctor P recv send =
      { calls := [shell_call.recv (List.replicate 512 0) 512]
        query := some query
        responded := true
        result := .ok { _cache_map := [], _recv := recv, _send := send } } := by
  unfold dns_server.ctor
  simp only [DNS_UDP_MSG_LEN_RESTRICTION]
  rw [h]
  simp only [response_keeps_cache]

/-- What the receive operation of main.cpp leaves in the shell's buffer. -/
theorem udp_recv_zeroed {Tpeer : Type} (peer : Tpeer) (d : List Octet) (h : d.length ≤ 512) :
    udp_recv peer d (List.replicate 512 0) 512 = (peer, d.length, receive_buffer d) := by
  unfold udp_recv receive_buffer
  rw [Nat.min_eq_left h, List.drop_replicate]

/-- The constructor of `dns_query` on a datagram with the QR bit set, as the
receive operation of main.cpp hands it over. -/
theorem ctor_response_datagram {Tpeer : Type} (P : Platform) (peer : Tpeer)
    (d : List Octet) (h : d.length ≤ 512) (hqr : 128 ≤ octet_at d 2) :
    dns_query.ctor P (udp_recv peer d (List.replicate 512 0) 512).2.2
      (udp_recv peer d (List.replicate 512 0) 512).2.1 = .error .not_a_query := by
  rw [udp_recv_zeroed peer d h]
  unfold dns_query.ctor
  rw [construct_response P _ _ (receive_buffer_length d)
    (by rw [octet_at_receive_buffer d h]; exact hqr)]

/-- A datagram with the QR bit set, given to the shell by the receive
operation of main.cpp. -/
theorem shell_response_datagram {Tpeer : Type} (P : Platform) (peer : Tpeer)
    (send : send_function Tpeer) (d : List Octet) (h : d.length ≤ 512)
    (hqr : 128 ≤ octet_at d 2) :
    dns_server.ctor P (udp_recv peer d) send =
      { calls := [shell_call.recv (List.replicate 512 0) 512]
        query := none
        responded := false
        result := .error .not_a_query } :=
  shell_throws P _ send _ (ctor_response_datagram P peer d h hqr)

theorem send_not_in_calls {Tpeer : Type} (b c : List Octet) (l n : Nat) (p : Tpeer) :
    shell_call.send b l p ∉ [shell_call.recv c n] := by
  simp

/-- A datagram that is a whole query, given to the shell by the receive
operation of main.cpp. -/
theorem shell_query_datagram {Tpeer : Type} (P : Platform) (peer : Tpeer)
    (hdr : List Octet) (qs : List wire_question)
    (hlen : hdr.length = 12) (hqr : octet_at hdr 2 < 128)
    (hqd : 256 * octet_at hdr 4 + octet_at hdr 5 = qs.length)
    (hwf : well_formed_questions qs)
    (h : (hdr ++ encode_questions qs).length ≤ 512) :
    ∃ query,
      dns_query.ctor P (udp_recv peer (hdr ++ encode_questions qs) (List.replicate 512 0) 512).2.2
        (udp_recv peer (hdr ++ encode_questions qs) (List.replicate 512 0) 512).2.1 = .ok query
      ∧ query.get_question_list = qs.map (decoded P) := by
  rw [udp_recv_zeroed peer _ h, receive_buffer_short _ h]
  have hr := read_questions_of_message P hdr qs
    (List.replicate (512 - (hdr ++ encode_questions qs).length) 0) hlen hwf
  rw [List.append_assoc] at hr ⊢
  exact ctor_message_ok P hdr _ _ hlen hqr _ _ (by rw [hqd]; exact hr)

/-- A datagram whose first question starts with a length octet of 64 or
more, given to the shell by the receive operation of main.cpp. -/
theorem shell_compression_datagram {Tpeer : Type} (P : Platform) (peer : Tpeer)
    (send : send_function Tpeer) (hdr rest : List Octet) (c : Octet)
    (hlen : hdr.length = 12) (hqr : octet_at hdr 2 < 128)
    (hqd : 1 ≤ 256 * octet_at hdr 4 + octet_at hdr 5) (hc : 64 ≤ c.val)
    (h : (hdr ++ c :: rest).length ≤ 512) :
    dns_server.ctor P (udp_recv peer (hdr ++ c :: rest)) send =
      { calls := [shell_call.recv (List.replicate 512 0) 512]
        query := none
        responded := false
        result := .error .has_compression } := by
  apply shell_throws
  rw [udp_recv_zeroed peer _ h, receive_buffer_short _ h, List.append_assoc, List.cons_append]
  exact ctor_compression_first P hdr _ c _ _ hlen hqr rfl hqd hc

/-- C11 fails: scenario B (QR set) handed to the shell by the receive
operation of main.cpp.  The constructor of `dns_server` does not complete: the
not-a-query exception of `dns_query` leaves it, after one call of `recv`. -/
theorem C11_decode_error_propagates :
    dns_server.ctor x86_64 (udp_recv () scenario_B) udp_send =
      { calls := [shell_call.recv (List.replicate 512 0) 512]
        query := none
        responded := false
        result := .error .not_a_query }
    ∧ ∀ server : dns_server Unit,
        (dns_server.ctor x86_64 (udp_recv () scenario_B) udp_send).result ≠ .ok server := by
  have h := shell_response_datagram x86_64 () udp_send scenario_B (by decide) (by decide)
  refine ⟨h, ?_⟩
  intro server hc
  rw [h] at hc
  cases hc

/-- C11 as amended: when the constructor of `dns_query` ends with a fault on
the buffer and length that the injected receive operation returned, one
invocation of the shell stops processing that datagram, no response is
constructed and `send` is not called, and the same fault ends the constructor
of `dns_server`: an exception of `dns_query` leaves it to its caller.  A
datagram with the QR bit set, received by the operation of main.cpp, leaves
it with the not-a-query exception; a query whose first length octet is 64 or
more leaves it with the compression exception. -/
theorem C11_shell_propagates {Tpeer : Type} (P : Platform) (recv : recv_function Tpeer)
    (send : send_function Tpeer) (e : decode_fault)
    (h : dns_query.ctor P (recv (List.replicate 512 0) 512).2.2
      (recv (List.replicate 512 0) 512).2.1 = .error e) :
    (dns_server.ctor P recv send).result = .error e
    ∧ (dns_server.ctor P recv send).calls = [shell_call.recv (List.replicate 512 0) 512]
    ∧ (dns_server.ctor P recv send).query = none
    ∧ (dns_server.ctor P recv send).responded = false
    ∧ (∀ b l p, shell_call.send b l p ∉ (dns_server.ctor P recv send).calls)
    ∧ (∀ (peer : Tpeer) (d : List Octet), d.length ≤ 512 → 128 ≤ octet_at d 2 →
        (dns_server.ctor P (udp_recv peer d) send).result = .error .not_a_query)
    ∧ (∀ (peer : Tpeer) (hdr rest : List Octet) (c : Octet), hdr.length = 12 →
        octet_at hdr 2 < 128 → 1 ≤ 256 * octet_at hdr 4 + octet_at hdr 5 → 64 ≤ c.val →
        (hdr ++ c :: rest).length ≤ 512 →
        (dns_server.ctor P (udp_recv peer (hdr ++ c :: rest)) send).result
          = .error .has_compression) := by
  rw [shell_throws P recv send e h]
  refine ⟨rfl, rfl, rfl, rfl, fun b l p => send_not_in_calls b _ l _ p, ?_, ?_⟩
  · intro peer d hd hqr
    rw [shell_response_datagram P peer send d hd hqr]
  · intro peer hdr rest c hlen hqr hqd hc hd
    rw [shell_compression_datagram P peer send hdr rest c hlen hqr hqd hc hd]

/-- Witness for C11 as amended: scenario B received by the operation of
main.cpp. -/
theorem C11_shell_propagates_witness :
    dns_query.ctor x86_64 (udp_recv () scenario_B (List.replicate 512 0) 512).2.2
        (udp_recv () scenario_B (List.replicate 512 0) 512).2.1 = .error .not_a_query
    ∧ (dns_server.ctor x86_64 (udp_recv () scenario_B) (udp_send : send_function Unit)).result
        = .error .not_a_query
    ∧ (dns_server.ctor x86_64 (udp_recv () scenario_B) (udp_send : send_function Unit)).calls
        = [shell_call.recv (List.replicate 512 0) 512] :=
  ⟨ctor_response_datagram x86_64 () scenario_B (by decide) (by decide),
    (C11_shell_propagates x86_64 (udp_recv () scenario_B) udp_send .not_a_query
      (ctor_response_datagram x86_64 () scenario_B (by decide) (by decide))).1,
    (C11_shell_propagates x86_64 (udp_recv () scenario_B) udp_send .not_a_query
      (ctor_response_datagram x86_64 () scenario_B (by decide) (by decide))).2.1⟩

/-- C12 fails: scenario A handed to the shell by the receive operation of
main.cpp decodes to its one question, and the calls of the injected
operations are one call of `recv` and no call of `send`. -/
theorem C12_send_not_called :
    (∃ query,
      (dns_server.ctor x86_64 (udp_recv () scenario_A) udp_send).query = some query
      ∧ query.get_question_list = [question_A].map (decoded x86_64))
    ∧ (dns_server.ctor x86_64 (udp_recv () scenario_A) udp_send).calls
        = [shell_call.recv (List.replicate 512 0) 512]
    ∧ ∀ b l p, shell_call.send b l p
        ∉ (dns_server.ctor x86_64 (udp_recv () scenario_A) udp_send).calls := by
  obtain ⟨query, hq, hl⟩ := shell_query_datagram x86_64 () header_A [question_A]
    (by decide) (by decide) (by decide) (by decide) (by decide)
  have e : header_A ++ encode_questions [question_A] = scenario_A := by decide
  rw [e] at hq
  rw [shell_returns x86_64 (udp_recv () scenario_A) udp_send query hq]
  exact ⟨⟨query, rfl, hl⟩, rfl, fun b l p => send_not_in_calls b _ l _ p⟩

/-- C12 as amended: for every pair of injected operations, one invocation of
the shell on a datagram that decodes calls `recv` exactly once, with a buffer
of 512 zeroed octets and a maximal length of 512, constructs `dns_query` from
exactly the buffer and the length that `recv` returned, constructs the
response, which leaves the cache empty, and returns the server; `send` is not
called. -/
theorem C12_one_receive_no_send {Tpeer : Type} (P : Platform) (recv : recv_function Tpeer)
    (send : send_function Tpeer) (query : dns_query)
    (h : dns_query.ctor P (recv (List.replicate 512 0) 512).2.2
      (recv (List.replicate 512 0) 512).2.1 = .ok query) :
    (dns_server.ctor P recv send).calls = [shell_call.recv (List.replicate 512 0) 512]
    ∧ (List.replicate 512 (0 : Octet)).length = 512
    ∧ (dns_server.ctor P recv send).query = some query
    ∧ query._message_in = (recv (List.replicate 512 0) 512).2.2
    ∧ query._message_length = (recv (List.replicate 512 0) 512).2.1
    ∧ (dns_server.ctor P recv send).responded = true
    ∧ (∃ server, (dns_server.ctor P recv send).result = .ok server
        ∧ server._cache_map = [])
    ∧ (∀ b l p, shell_call.send b l p ∉ (dns_server.ctor P recv send).calls) := by
  have hm := ctor_members P _ _ query h
  rw [shell_returns P recv send query h]
  exact ⟨rfl, List.length_replicate 512 0, rfl, hm.1, hm.2, rfl, ⟨_, rfl, rfl⟩,
    fun b l p => send_not_in_calls b _ l _ p⟩

/-- Witness for C12 as amended: scenario A received by the operation of
main.cpp, 33 octets long. -/
theorem C12_one_receive_no_send_witness :
    ∃ query,
      dns_query.ctor x86_64 (udp_recv () scenario_A (List.replicate 512 0) 512).2.2
          (udp_recv () scenario_A (List.replicate 512 0) 512).2.1 = .ok query
      ∧ (dns_server.ctor x86_64 (udp_recv () scenario_A) (udp_send : send_function Unit)).calls
          = [shell_call.recv (List.replicate 512 0) 512]
      ∧ (dns_server.ctor x86_64 (udp_recv () scenario_A) (udp_send : send_function Unit)).query
          = some query
      ∧ query._message_in = receive_buffer scenario_A
      ∧ query._message_length = 33 := by
  obtain ⟨query, hq, _⟩ := shell_query_datagram x86_64 () header_A [question_A]
    (by decide) (by decide) (by decide) (by decide) (by decide)
  have e : header_A ++ encode_questions [question_A] = scenario_A := by decide
  rw [e] at hq
  have hu : udp_recv () scenario_A (List.replicate 512 0) 512
      = ((), 33, receive_buffer scenario_A) := udp_recv_zeroed () scenario_A (by decide)
  have w := C12_one_receive_no_send x86_64 (udp_recv () scenario_A) udp_send query hq
  refine ⟨query, hq, w.1, w.2.2.1, ?_, ?_⟩
  · rw [w.2.2.2.1, hu]
  · rw [w.2.2.2.2.1, hu]

/-! ## The shape of a decoded name -/

/-- A run of the label loop that returns has appended well-formed labels and
then the root label, has moved the cursor by the length of their wire form
plus one, and has stayed inside the buffer. -/
theorem read_labels_shape (P : Platform) (buf : List Octet) :
    ∀ (fuel p : Nat) (acc name : dns_name) (p1 : Nat),
      read_labels P buf fuel p acc = .ok (name, p1) →
      ∃ ls, name = acc ++ ls ++ [[]] ∧ well_formed_labels ls
        ∧ p1 = p + (encode_labels ls).length + 1 ∧ p1 ≤ buf.length := by
  intro fuel
  induction fuel with
  | zero => intro p acc name p1 h; simp [read_labels] at h
  | succ f ih =>
    intro p acc name p1 h
    rw [read_labels] at h
    cases hg : buf[p]? with
    | none => rw [hg] at h; cases h
    | some c =>
      rw [hg] at h
      dsimp only at h
      have hp : p < buf.length := by
        by_contra hcon
        rw [List.getElem?_eq_none (by omega)] at hg
        cases hg
      by_cases h1 : size_of_char P c > 63
      · rw [if_pos h1] at h; cases h
      · rw [if_neg h1] at h
        by_cases h2 : buf.length < p + 1 + size_of_char P c
        · rw [if_pos h2] at h; cases h
        · rw [if_neg h2] at h
          by_cases h3 : size_of_char P c ≠ 0
          · rw [if_pos h3] at h
            obtain ⟨ls, hn, hwf, hp1, hle⟩ := ih _ _ _ _ h
            have hlen : ((buf.drop (p + 1)).take (size_of_char P c)).length
                = size_of_char P c := by
              rw [List.length_take, List.length_drop]
              omega
            refine ⟨(buf.drop (p + 1)).take (size_of_char P c) :: ls, ?_, ?_, ?_, hle⟩
            · rw [hn]; simp
            · intro l hl
              rw [List.mem_cons] at hl
              rcases hl with hl | hl
              · rw [hl, hlen]; omega
              · exact hwf l hl
            · rw [hp1]
              simp only [encode_labels, List.length_cons, List.length_append, hlen]
              omega
          · rw [if_neg h3] at h
            have hz : size_of_char P c = 0 := by omega
            injection h with h
            injection h with hn hp1
            refine ⟨[], ?_, ?_, ?_, ?_⟩
            · rw [← hn, hz]; simp
            · intro l hl; cases hl
            · rw [← hp1, hz]; simp [encode_labels]
            · omega

/-- The canonical string of a decoded name is one octet shorter than its wire
form. -/
theorem length_to_string_decoded (ls : List (List Octet)) (hwf : well_formed_labels ls) :
    (dns_name.to_string (ls ++ [[]])).length = (encode_labels ls).length := by
  induction ls with
  | nil => rfl
  | cons l ls ih =>
    have hl := hwf l (List.mem_cons_self l ls)
    have hne : l.length ≠ 0 := by omega
    rw [List.cons_append, to_string_cons, if_neg hne, List.length_append, List.length_append,
      ih (fun x hx => hwf x (List.mem_cons_of_mem l hx))]
    simp only [encode_labels, List.length_cons, List.length_append, List.length_nil]
    omega

/-- Every entry a run of the question loop adds has a name that a run of the
label loop returned. -/
theorem read_questions_entries (P : Platform) (buf : List Octet) :
    ∀ (n p : Nat) (acc l : List message_question) (e : Nat),
      read_questions P buf n p acc = .ok (l, e) →
      ∃ new, l = acc ++ new ∧ new.length = n
        ∧ ∀ q ∈ new, ∃ p0 p1,
            read_labels P buf (buf.length + 1) p0 [] = .ok (q.qname, p1) := by
  intro n
  induction n with
  | zero =>
    intro p acc l e h
    simp only [read_questions] at h
    injection h with h
    injection h with h1 _
    exact ⟨[], by rw [← h1]; simp, rfl, fun q hq => by cases hq⟩
  | succ n ih =>
    intro p acc l e h
    rw [read_questions] at h
    cases hq : read_question P buf p with
    | error err => rw [hq] at h; cases h
    | ok r =>
      obtain ⟨question, p1⟩ := r
      rw [hq] at h
      dsimp only at h
      obtain ⟨new, hl, hn, hall⟩ := ih _ _ _ _ h
      have hname : ∃ pn, read_labels P buf (buf.length + 1) p [] = .ok (question.qname, pn) := by
        unfold read_question at hq
        cases hr : read_labels P buf (buf.length + 1) p [] with
        | error err => rw [hr] at hq; cases hq
        | ok r =>
          obtain ⟨name, pn⟩ := r
          rw [hr] at hq
          dsimp only at hq
          split at hq
          · cases hq
          · injection hq with hq
            injection hq with hq1 _
            exact ⟨pn, by rw [← hq1]⟩
      refine ⟨question :: new, by rw [hl]; simp, by simp [hn], ?_⟩
      intro q hq
      rw [List.mem_cons] at hq
      rcases hq with hq | hq
      · obtain ⟨pn, hpn⟩ := hname
        exact ⟨p, pn, by rw [hq]; exact hpn⟩
      · exact hall q hq

/-- The question list of a constructed query is what the question loop
returned from offset 12. -/
theorem ctor_question_list (P : Platform) (buf : List Octet) (msg_len : Nat) (query : dns_query)
    (h : dns_query.ctor P buf msg_len = .ok query) :
    ∃ e, read_questions P buf query._header.qd_count 12 [] = .ok (query._question_list, e) := by
  unfold dns_query.ctor dns_query.construct at h
  cases hh : message_header.ctor P buf with
  | error e => rw [hh] at h; cases h
  | ok header =>
    rw [hh] at h
    dsimp only at h
    by_cases hq : (header.flag &&& 0x8000) >>> 15 ≠ 0
    · rw [if_pos hq] at h; cases h
    · rw [if_neg hq] at h
      cases hr : read_questions P buf header.qd_count 12 [] with
      | error e => rw [hr] at h; cases h
      | ok r =>
        obtain ⟨l, e⟩ := r
        rw [hr] at h
        injection h with h
        rw [← h]
        exact ⟨e, hr⟩

/-- C15: every qname in the question list of a successfully constructed
`dns_query` is a non-empty label sequence whose last label is the empty root
label and whose other labels have between 1 and 63 octets; it is what a run of
the label loop returned, and the octets that run consumed are one more than
the length of the canonical string of the name. -/
theorem C15_decoded_name_shape (P : Platform) (buf : List Octet) (msg_len : Nat)
    (query : dns_query) (q : message_question)
    (h : dns_query.ctor P buf msg_len = .ok query) (hq : q ∈ query.get_question_list) :
    q.qname ≠ []
    ∧ q.qname.getLast? = some []
    ∧ well_formed_labels q.qname.dropLast
    ∧ q.qname = q.qname.dropLast ++ [[]]
    ∧ ∃ p0 p1, read_labels P buf (buf.length + 1) p0 [] = .ok (q.qname, p1)
        ∧ p0 < p1 ∧ p1 ≤ buf.length
        ∧ p1 - p0 = (dns_name.to_string q.qname).length + 1 := by
  obtain ⟨e, hr⟩ := ctor_question_list P buf msg_len query h
  obtain ⟨new, hl, _, hall⟩ := read_questions_entries P buf _ _ _ _ _ hr
  have hq1 : q ∈ new := by
    unfold dns_query.get_question_list at hq
    rw [hl] at hq
    simpa using hq
  obtain ⟨p0, p1, hrun⟩ := hall q hq1
  obtain ⟨ls, hn, hwf, hp1, hle⟩ := read_labels_shape P buf _ _ _ _ _ hrun
  rw [List.nil_append] at hn
  have hdl : q.qname.dropLast = ls := by rw [hn, List.dropLast_concat]
  refine ⟨?_, ?_, ?_, ?_, p0, p1, hrun, by omega, hle, ?_⟩
  · rw [hn]; simp
  · rw [hn]; simp
  · rw [hdl]; exact hwf
  · rw [hdl]; exact hn
  · rw [hn, length_to_string_decoded ls hwf, hp1]
    omega

/-- Witness for C15: the one question of scenario A on x86-64; its name takes
the 17 octets from offset 12 to offset 29 and its canonical string has 16. -/
theorem C15_decoded_name_shape_witness :
    dns_query.ctor x86_64 scenario_A 33 = .ok
      { _message_in := scenario_A
        _message_length := 33
        _header := { id := 0x1234, flag := 0x0100, qd_count := 1,
                     an_count := 0, ns_count := 0, ar_count := 0 }
        _question_list := [decoded x86_64 question_A] }
    ∧ decoded x86_64 question_A ∈ [decoded x86_64 question_A]
    ∧ (decoded x86_64 question_A).qname.getLast? = some []
    ∧ well_formed_labels (decoded x86_64 question_A).qname.dropLast
    ∧ read_labels x86_64 scenario_A (scenario_A.length + 1) 12 []
        = .ok ((decoded x86_64 question_A).qname, 29)
    ∧ (dns_name.to_string (decoded x86_64 question_A).qname).length = 16 :=
  ⟨rfl, by decide,
    (C15_decoded_name_shape x86_64 scenario_A 33 _ (decoded x86_64 question_A) rfl
      (List.mem_singleton.mpr rfl)).2.1,
    (C15_decoded_name_shape x86_64 scenario_A 33 _ (decoded x86_64 question_A) rfl
      (List.mem_singleton.mpr rfl)).2.2.1,
    rfl, by decide⟩

/-! ## The canonical string as a key -/

theorem split_at_dot (l1 : List Octet) :
    ∀ (l2 r1 r2 : List Octet), l1 ++ dot :: r1 = l2 ++ dot :: r2 → dot ∉ l1 → dot ∉ l2 →
      l1 = l2 ∧ r1 = r2 := by
  induction l1 with
  | nil =>
    intro l2 r1 r2 h _ h2
    cases l2 with
    | nil =>
      simp only [List.nil_append, List.cons.injEq, true_and] at h
      exact ⟨rfl, h⟩
    | cons c l2 =>
      simp only [List.nil_append, List.cons_append, List.cons.injEq] at h
      exact absurd (by rw [h.1]; exact List.mem_cons_self c l2) h2
  | cons c l1 ih =>
    intro l2 r1 r2 h h1 h2
    cases l2 with
    | nil =>
      simp only [List.nil_append, List.cons_append, List.cons.injEq] at h
      exact absurd (by rw [← h.1]; exact List.mem_cons_self c l1) h1
    | cons d l2 =>
      simp only [List.cons_append, List.cons.injEq] at h
      obtain ⟨hl, hr⟩ := ih l2 r1 r2 h.2
        (fun hm => h1 (List.mem_cons_of_mem c hm)) (fun hm => h2 (List.mem_cons_of_mem d hm))
      exact ⟨by rw [h.1, hl], hr⟩

theorem dotted_injective (ls1 : List (List Octet)) :
    ∀ ls2 : List (List Octet),
      (ls1.map (fun v => v ++ [dot])).flatten = (ls2.map (fun v => v ++ [dot])).flatten →
      (∀ l ∈ ls1, dot ∉ l) → (∀ l ∈ ls2, dot ∉ l) → ls1 = ls2 := by
  induction ls1 with
  | nil =>
    intro ls2 h _ _
    cases ls2 with
    | nil => rfl
    | cons l ls2 =>
      simp only [List.map_nil, List.flatten_nil, List.map_cons, List.flatten_cons,
        List.append_assoc, List.singleton_append] at h
      exact absurd (congrArg List.length h)
        (by simp only [List.length_nil, List.length_append, List.length_cons]; omega)
  | cons l ls1 ih =>
    intro ls2 h h1 h2
    cases ls2 with
    | nil =>
      simp only [List.map_nil, List.flatten_nil, List.map_cons, List.flatten_cons,
        List.append_assoc, List.singleton_append] at h
      exact absurd (congrArg List.length h)
        (by simp only [List.length_nil, List.length_append, List.length_cons]; omega)
    | cons m ls2 =>
      simp only [List.map_cons, List.flatten_cons, List.append_assoc,
        List.singleton_append] at h
      obtain ⟨hl, hr⟩ := split_at_dot l m _ _ h (h1 l (List.mem_cons_self l ls1))
        (h2 m (List.mem_cons_self m ls2))
      rw [hl, ih ls2 hr (fun x hx => h1 x (List.mem_cons_of_mem l hx))
        (fun x hx => h2 x (List.mem_cons_of_mem m hx))]

/-- C16: two names of the decoder's shape, labels of 1 to 63 octets followed
by the root label, none of whose labels contains a dot, are the same label
sequence when their conversions to `std::string` are equal. -/
theorem C16_canonical_string_injective (ls1 ls2 : List (List Octet))
    (hwf1 : well_formed_labels ls1) (hwf2 : well_formed_labels ls2)
    (hd1 : ∀ l ∈ ls1, dot ∉ l) (hd2 : ∀ l ∈ ls2, dot ∉ l)
    (h : dns_name.to_string (ls1 ++ [[]]) = dns_name.to_string (ls2 ++ [[]])) :
    ls1 ++ [[]] = ls2 ++ [[]] := by
  rw [to_string_decoded ls1 hwf1, to_string_decoded ls2 hwf2] at h
  rw [dotted_injective ls1 ls2 h hd1 hd2]

/-- Witness for C16: the name `www.example.com.` against itself. -/
theorem C16_canonical_string_injective_witness :
    well_formed_labels question_A.labels
    ∧ (∀ l ∈ question_A.labels, dot ∉ l)
    ∧ dns_name.to_string (question_A.labels ++ [[]])
        = dns_name.to_string ([ascii "www", ascii "example", ascii "com"] ++ [[]])
    ∧ question_A.labels ++ [[]] = [ascii "www", ascii "example", ascii "com"] ++ [[]] :=
  ⟨by decide, by decide, rfl,
    C16_canonical_string_injective question_A.labels [ascii "www", ascii "example", ascii "com"]
      (by decide) (by decide) (by decide) (by decide) rfl⟩

/-! ## Termination -/

/-- A budget of as many iterations as there are octets from the cursor to the
end of the buffer is never exceeded: every budget that large gives the same
run. -/
theorem read_labels_budget (P : Platform) (buf : List Octet) :
    ∀ (f g p : Nat) (acc : dns_name), buf.length ≤ f + p → buf.length ≤ g + p →
      read_labels P buf f p acc = read_labels P buf g p acc := by
  intro f
  induction f with
  | zero =>
    intro g p acc hf _
    have hnone : buf[p]? = none := List.getElem?_eq_none (by omega)
    cases g with
    | zero => rfl
    | succ g => rw [read_labels, read_labels, hnone]
  | succ f ih =>
    intro g p acc hf hg
    cases g with
    | zero =>
      have hnone : buf[p]? = none := List.getElem?_eq_none (by omega)
      rw [read_labels, read_labels, hnone]
    | succ g =>
      rw [read_labels, read_labels]
      cases buf[p]? with
      | none => rfl
      | some c =>
        dsimp only
        by_cases h1 : size_of_char P c > 63
        · rw [if_pos h1, if_pos h1]
        · rw [if_neg h1, if_neg h1]
          by_cases h2 : buf.length < p + 1 + size_of_char P c
          · rw [if_pos h2, if_pos h2]
          · rw [if_neg h2, if_neg h2]
            by_cases h3 : size_of_char P c ≠ 0
            · rw [if_pos h3, if_pos h3]
              exact ih g (p + size_of_char P c + 1) _ (by omega) (by omega)
            · rw [if_neg h3, if_neg h3]

/-- One iteration of the label loop that goes on: the cursor moves by the
label length plus one. -/
theorem read_labels_iteration (P : Platform) (buf : List Octet) (fuel p : Nat)
    (acc : dns_name) (c : Octet) (hc : buf[p]? = some c) (h63 : size_of_char P c ≤ 63)
    (h0 : size_of_char P c ≠ 0) (hb : p + 1 + size_of_char P c ≤ buf.length) :
    read_labels P buf (fuel + 1) p acc
      = read_labels P buf fuel (p + size_of_char P c + 1)
          (acc ++ [(buf.drop (p + 1)).take (size_of_char P c)]) := by
  rw [read_labels, hc]
  dsimp only
  rw [if_neg (by omega), if_neg (by omega), if_pos h0]

theorem header_qd_count_le (P : Platform) (buf : List Octet) (header : message_header)
    (h : message_header.ctor P buf = .ok header) : header.qd_count ≤ 65535 := by
  have h4 := octet_at_lt buf 4
  have h5 := octet_at_lt buf 5
  by_cases hl : 12 ≤ buf.length
  · rw [header_fields P buf hl] at h
    injection h with h
    rw [← h]
    dsimp only
    omega
  · unfold message_header.ctor at h
    rw [if_pos (by omega)] at h
    cases h

/-- C17: on every buffer and for every `msg_len`, the decoder with
bounds-checked reads ends with a question list or with an error.  An
iteration of the label loop that goes on moves the cursor by the label length
plus one, a name scan that returns has moved the cursor forward and stayed
inside the buffer, and a name scan from cursor `p` never needs more than
`buf.length - p` iterations: with any budget that large it ends as it ends
with the budget the decoder gives it.  The outer loop runs `qd_count` times, at
most 65535: a run that returns has added exactly that many questions. -/
theorem C17_decoder_terminates (P : Platform) (buf : List Octet) (msg_len : Nat) :
    ((∃ query, dns_query.ctor P buf msg_len = .ok query
        ∧ query.get_question_list.length = query._header.qd_count
        ∧ query._header.qd_count ≤ 65535)
      ∨ (∃ e, dns_query.ctor P buf msg_len = .error e))
    ∧ (∀ (fuel p : Nat) (acc : dns_name), buf.length - p ≤ fuel →
        read_labels P buf fuel p acc = read_labels P buf (buf.length - p) p acc
        ∧ read_labels P buf fuel p acc = read_labels P buf (buf.length + 1) p acc)
    ∧ (∀ (fuel p : Nat) (acc : dns_name) (c : Octet), buf[p]? = some c →
        size_of_char P c ≤ 63 → size_of_char P c ≠ 0 →
        p + 1 + size_of_char P c ≤ buf.length →
        read_labels P buf (fuel + 1) p acc
          = read_labels P buf fuel (p + size_of_char P c + 1)
              (acc ++ [(buf.drop (p + 1)).take (size_of_char P c)]))
    ∧ (∀ (fuel p : Nat) (acc name : dns_name) (p1 : Nat),
        read_labels P buf fuel p acc = .ok (name, p1) → p < p1 ∧ p1 ≤ buf.length)
    ∧ (∀ (n p : Nat) (acc l : List message_question) (e : Nat),
        read_questions P buf n p acc = .ok (l, e) → l.length = acc.length + n) := by
  refine ⟨?_, ?_, ?_, ?_, ?_⟩
  · cases h : dns_query.ctor P buf msg_len with
    | error e => exact Or.inr ⟨e, rfl⟩
    | ok query =>
      refine Or.inl ⟨query, rfl, ?_, header_qd_count_le P buf _ (ctor_header P buf msg_len query h)⟩
      obtain ⟨e, hr⟩ := ctor_question_list P buf msg_len query h
      obtain ⟨new, hl, hn, _⟩ := read_questions_entries P buf _ _ _ _ _ hr
      unfold dns_query.get_question_list
      rw [hl, List.nil_append, hn]
  · intro fuel p acc hf
    exact ⟨read_labels_budget P buf _ _ p acc (by omega) (by omega),
      read_labels_budget P buf _ _ p acc (by omega) (by omega)⟩
  · intro fuel p acc c hc h63 h0 hb
    exact read_labels_iteration P buf fuel p acc c hc h63 h0 hb
  · intro fuel p acc name p1 h
    obtain ⟨ls, _, _, _, hle⟩ := read_labels_shape P buf _ _ _ _ _ h
    exact ⟨read_labels_cursor P buf _ _ _ _ _ h, hle⟩
  · intro n p acc l e h
    obtain ⟨new, hl, hn, _⟩ := read_questions_entries P buf _ _ _ _ _ h
    rw [hl, List.length_append, hn]

end lynxdns
